import Mathlib

/-!
Shallow embedding of the reconciliation engine of the wit-deps dependency
manager (crates/wit-deps/src/{lib,manifest,lock}.rs), together with theorems
settling the spec claims about it.

Modelling conventions:
  * Filesystem paths are lists of components (`DirPath`); `PathBuf` values that
    are only stored and compared (manifest `path` fields) are plain strings.
  * The dual sha256/sha512 digest is a pair of naturals; the code only ever
    compares digests for equality, so nothing about the hash functions is
    assumed.
  * All I/O performed by `Entry::lock` is mediated through an explicit
    `EntryWorld` record: what `LockEntry::digest` returns at each path before
    any rebuild, what the cache lookup yields, what the HTTP fetch yields, and
    what `copy_wits` yields.  Unpacking a stream yields an `Unpacked` record
    carrying the returned transitive map and the digests of the directories it
    materialized.
  * Destructive or network actions are recorded as an `Effect` trace, and the
    existence of the per-entry output directory is threaded through explicitly,
    so that claims about "no fetch happened" or "the directory is gone after a
    failed run" are statable.
  * `async_tar` unpacking (`untar` in lib.rs) is modelled separately and
    executably over a list of archive entries and a small file-system map.
-/

namespace WitDeps

/-- Dependency identifier, as in lib.rs (`pub type Identifier = String`). -/
abbrev Identifier := String

/-- A filesystem path, as a list of components. -/
abbrev DirPath := List String

/-- Character-level model of `id.replace(":", "_")` from manifest.rs. -/
def sanitizeId (id : Identifier) : Identifier :=
  String.mk (id.data.map fun c => if c = ':' then '_' else c)

/-- Lexicographic comparison of character lists, by code point. -/
def strLtAux : List Char → List Char → Bool
  | [], [] => false
  | [], _ :: _ => true
  | _ :: _, [] => false
  | a :: as, b :: bs => if a < b then true else if a = b then strLtAux as bs else false

/-- Lexicographic order on strings; agrees with the byte order Rust's
`BTreeMap<String, _>` and `BTreeSet<String>` use, since UTF-8 preserves
code-point order. -/
def strLt (a b : String) : Bool := strLtAux a.data b.data

/-- Insert into a strictly sorted list of identifiers, dropping duplicates. -/
def insortDedup (x : Identifier) : List Identifier → List Identifier
  | [] => [x]
  | y :: ys => if strLt x y then x :: y :: ys else if x = y then y :: ys else y :: insortDedup x ys

/-- Model of collecting identifiers into a `BTreeSet`: sorted and deduplicated. -/
def sortDedup (l : List Identifier) : List Identifier := l.foldr insortDedup []

/-- Strict sortedness of a list of identifiers. -/
def strSorted : List Identifier → Bool
  | [] => true
  | [_] => true
  | x :: y :: r => strLt x y && strSorted (y :: r)

/-- ASCII-only lower casing of one character, mirroring
`u8::eq_ignore_ascii_case` semantics. -/
def asciiLower (c : Char) : Char :=
  if 'A' ≤ c ∧ c ≤ 'Z' then Char.ofNat (c.toNat + 32) else c

/-- Model of `str::eq_ignore_ascii_case`. -/
def eqIgnoreAsciiCase (a b : String) : Bool :=
  a.data.map asciiLower == b.data.map asciiLower

/-- Helper for `extension`: walks the reversed character list collecting the
candidate extension until the first dot. -/
def extAux : List Char → List Char → Option String
  | [], _ => none
  | c :: rest, acc =>
    if c = '.' then (if rest.isEmpty then none else some (String.mk acc))
    else extAux rest (c :: acc)

/-- Model of `std::path::Path::extension` on a single file name: the part
after the last dot, provided the part before that dot is nonempty. -/
def extension (s : String) : Option String := extAux s.data.reverse []

/-- Model of `is_wit` from lib.rs: the extension compares equal to `wit`
ignoring ASCII case. -/
def isWit (name : String) : Bool :=
  match extension name with
  | some ext => eqIgnoreAsciiCase ext ("wit")
  | none => false

/-- Dual digest (sha256, sha512), compared componentwise. -/
structure Digest where
  sha256 : Nat
  sha512 : Nat
deriving DecidableEq, Repr

/-- A URL, split into its scheme and the remainder. -/
structure UrlV where
  scheme : String
  rest : String
deriving DecidableEq, Repr

/-- Rendering of a URL for error messages. -/
def UrlV.render (u : UrlV) : String := u.scheme ++ "://" ++ u.rest

/-- Lock entry source (lock.rs `EntrySource`): a URL with its subdir, or a
local path. -/
inductive EntrySource where
  | url (url : UrlV) (subdir : String)
  | path (p : String)
deriving DecidableEq, Repr

/-- Lock entry (lock.rs `Entry`): optional source (`none` designates a
transitive entry), digest, and the sorted set of transitive dependency
identifiers. -/
structure LockEntry where
  source : Option EntrySource
  digest : Digest
  deps : List Identifier
deriving DecidableEq, Repr

/-- A lock: an association list of identifier/entry pairs with pairwise
distinct keys, modelling the `BTreeMap` in lock.rs. -/
abbrev Lock := List (Identifier × LockEntry)

/-- Key lookup in a lock. -/
def lockLookup : Lock → Identifier → Option LockEntry
  | [], _ => none
  | kv :: rest, id => if kv.1 = id then some kv.2 else lockLookup rest id

/-- Key list of a lock. -/
def lockKeys (l : Lock) : List Identifier := l.map fun kv => kv.1

/-- Manifest entry (manifest.rs `Entry`): a URL with optional pins and a
subdir (`wit` by default at decode time), or a local path. -/
inductive MEntry where
  | url (url : UrlV) (sha256 : Option Nat) (sha512 : Option Nat) (subdir : String)
  | path (p : String)
deriving DecidableEq, Repr

/-- The lock source a manifest entry gives rise to. -/
def MEntry.sourceOf : MEntry → EntrySource
  | .url u _ _ subdir => .url u subdir
  | .path p => .path p

/-- I/O error kinds the reconciler distinguishes (`NotFound` versus anything
else). -/
inductive IoErr where
  | notFound
  | other
deriving DecidableEq, Repr

/-- Error values of the reconciler, mirroring the `bail!`/`context` sites of
manifest.rs. -/
inductive LError where
  | io (e : IoErr)
  | noParent (out : DirPath)
  | httpFailed (url : UrlV)
  | fileScheme
  | unsupportedScheme (s : String)
  | sha256Mismatch (url : UrlV) (got : Nat) (expected : Nat)
  | sha512Mismatch (url : UrlV) (got : Nat) (expected : Nat)
  | transitiveConflict (id : Identifier)
  | entryFailed (id : Identifier) (e : LError)
deriving DecidableEq, Repr

/-- Hex rendering used in error messages. -/
def hexEncode (n : Nat) : String := String.mk (Nat.toDigits 16 n)

/-- User-visible message of an error, following the format strings in
manifest.rs. -/
def LError.message : LError → String
  | .io _ => "i/o error"
  | .noParent _ => "output directory does not have a parent"
  | .httpFailed u => "failed to GET `" ++ u.render ++ "`"
  | .fileScheme => "`file` scheme is not supported for `url` field, use `path` instead"
  | .unsupportedScheme s => "unsupported URL scheme `" ++ s ++ "`"
  | .sha256Mismatch u got expected =>
    "sha256 hash mismatch for `" ++ u.render ++ "`\ngot: " ++ hexEncode got
      ++ "\nexpected: " ++ hexEncode expected
  | .sha512Mismatch u got expected =>
    "sha512 hash mismatch for `" ++ u.render ++ "`\ngot: " ++ hexEncode got
      ++ "\nexpected: " ++ hexEncode expected
  | .transitiveConflict id =>
    "transitive dependency conflict for `" ++ id ++ "`, add `" ++ id
      ++ "` to dependency manifest to resolve it"
  | .entryFailed id e => "failed to lock `" ++ id ++ "`: " ++ e.message

/-- Result of a fallible reconciler step. -/
inductive Res (α : Type) where
  | ok (a : α)
  | err (e : LError)
deriving DecidableEq, Repr

/-- Result of a digest computation (`LockEntry::digest`). -/
inductive DigRes where
  | ok (d : Digest)
  | err (e : IoErr)
deriving DecidableEq, Repr

/-- Observable side effects of one reconciliation run: network fetches,
directory copies, cache-stream unpacks, and directory removals. -/
inductive Effect where
  | fetch (url : UrlV)
  | copyDir (src : String) (dst : DirPath)
  | cacheUnpack (url : UrlV) (dst : DirPath)
  | removeDir (p : DirPath)
deriving DecidableEq, Repr

/-- Outcome of unpacking one archive stream (or of `copy_wits`): the
transitive map it returned and the digests of the directories it left on
disk. -/
structure Unpacked where
  deps : List (Identifier × DirPath)
  digestAt : DirPath → DigRes

/-- A fallible unpack. -/
inductive UnpackRes where
  | ok (u : Unpacked)
  | err (e : IoErr)

/-- What `cache.get(url)` yields: a lookup error, a miss, or a hit carrying
the digest of the cached stream and the outcome of unpacking it. -/
inductive CacheGet where
  | errGet
  | miss
  | hit (streamDigest : Digest) (unpack : UnpackRes)

/-- What the HTTP GET yields: failure, or a stream with its digest and the
outcome of unpacking it. -/
inductive FetchRes where
  | err
  | ok (streamDigest : Digest) (unpack : UnpackRes)

/-- The environment one `Entry::lock` call runs against. -/
structure EntryWorld where
  /-- Digest of the directory at a path in the pre-run on-disk state. -/
  preDigestAt : DirPath → DigRes
  /-- Whether the output directory exists before the run. -/
  outExists : Bool
  /-- Cache passed to the entry, if any, and what its lookup yields. -/
  cache : Option CacheGet
  /-- What the network fetch yields. -/
  fetch : FetchRes
  /-- What `copy_wits` yields for a path entry. -/
  pathCopy : UnpackRes

/-- Result of one `Entry::lock` call: the returned value, the effect trace,
and whether the output directory exists afterwards. -/
structure EntryOutcome where
  result : Res (LockEntry × List (Identifier × LockEntry))
  effects : List Effect
  outExists : Bool
deriving DecidableEq

/-- Model of `source_matches` from manifest.rs: every supplied pin must equal
the corresponding digest component; an absent pin is satisfied. -/
def source_matches (d : Digest) (sha256 sha512 : Option Nat) : Bool :=
  (match sha256 with | none => true | some h => h == d.sha256)
    && (match sha512 with | none => true | some h => h == d.sha512)

/-- Model of `lock_deps` from manifest.rs: digest each transitive dependency
path in order and build a transitive lock entry for it; the first failure
aborts. -/
def lockDeps (dAt : DirPath → DigRes) : List (Identifier × DirPath) → Res (List (Identifier × LockEntry))
  | [] => .ok []
  | idp :: rest =>
    match dAt idp.2 with
    | .err e => .err (.io e)
    | .ok d =>
      match lockDeps dAt rest with
      | .err e => .err e
      | .ok tl => .ok ((idp.1, ⟨none, d, []⟩) :: tl)

/-- Identifiers of a transitive map. -/
def idsOf (l : List (Identifier × LockEntry)) : List Identifier := l.map fun kv => kv.1

/-- Model of `deps.keys().cloned().collect::<BTreeSet<_>>()`. -/
def keyset (l : List (Identifier × LockEntry)) : List Identifier := sortDedup (idsOf l)

/-- Model of the two sequential pin checks of `Entry::lock` after a network
fetch: the sha256 pin is compared against the stream digest first, then the
sha512 pin; the first mismatch produces the corresponding error. -/
def pinCheck (u : UrlV) (sd : Digest) (s256 s512 : Option Nat) : Option LError :=
  match s256 with
  | some p =>
    if sd.sha256 == p then
      match s512 with
      | some q => if sd.sha512 == q then none else some (.sha512Mismatch u sd.sha512 q)
      | none => none
    else some (.sha256Mismatch u sd.sha256 p)
  | none =>
    match s512 with
    | some q => if sd.sha512 == q then none else some (.sha512Mismatch u sd.sha512 q)
    | none => none

/-- Shared accepting tail of the `Self::Url` rebuild: `lock_deps` over the
returned transitive map, then `LockEntry::from_url`, whose digest is the
digest of the unpacked output directory. -/
def finishUrl (u : UrlV) (subdir : String) (out : DirPath) (up : Unpacked)
    (effs : List Effect) : EntryOutcome :=
  match lockDeps up.digestAt up.deps with
  | .err e => ⟨.err e, effs, true⟩
  | .ok ds =>
    match up.digestAt out with
    | .err e => ⟨.err (.io e), effs, true⟩
    | .ok d => ⟨.ok (⟨some (.url u subdir), d, keyset ds⟩, ds), effs, true⟩

/-- Model of the `Self::Url` rebuild tail of `Entry::lock`: the scheme match,
the GET, the unpack, the pin checks against the stream digest, and the
accepting tail.  `effs` and `outEx` carry the state left by the cache
phase. -/
def fetchPhase (u : UrlV) (s256 s512 : Option Nat) (subdir : String) (out : DirPath)
    (w : EntryWorld) (effs : List Effect) (outEx : Bool) : EntryOutcome :=
  if u.scheme = "http" ∨ u.scheme = "https" then
    match w.fetch with
    | .err => ⟨.err (.httpFailed u), effs ++ [.fetch u], outEx⟩
    | .ok sd unp =>
      match unp with
      | .err e => ⟨.err (.io e), effs ++ [.fetch u], true⟩
      | .ok up =>
        match pinCheck u sd s256 s512 with
        | some err => ⟨.err err, effs ++ [.fetch u, .removeDir out], false⟩
        | none => finishUrl u subdir out up (effs ++ [.fetch u])
  else if u.scheme = "file" then ⟨.err .fileScheme, effs, outEx⟩
  else ⟨.err (.unsupportedScheme u.scheme), effs, outEx⟩

/-- Model of the `Self::Url` rebuild of `Entry::lock`: the cache phase is
attempted first.  On a hit whose unpack succeeds and whose stream digest
satisfies the pins, the cached contents are accepted; on a hit with a hash
mismatch the output directory and every returned transitive sibling are
removed; on an unpack error nothing is removed; in all non-accepting cases
processing falls through to `fetchPhase`. -/
def urlRebuild (u : UrlV) (s256 s512 : Option Nat) (subdir : String) (out : DirPath)
    (w : EntryWorld) : EntryOutcome :=
  match w.cache with
  | none => fetchPhase u s256 s512 subdir out w [] w.outExists
  | some .errGet => fetchPhase u s256 s512 subdir out w [] w.outExists
  | some .miss => fetchPhase u s256 s512 subdir out w [] w.outExists
  | some (.hit sd unp) =>
    match unp with
    | .err _ => fetchPhase u s256 s512 subdir out w [.cacheUnpack u out] true
    | .ok up =>
      if source_matches sd s256 s512 then finishUrl u subdir out up [.cacheUnpack u out]
      else
        fetchPhase u s256 s512 subdir out w
          ([.cacheUnpack u out, .removeDir out] ++ up.deps.map fun kv => .removeDir kv.2)
          false

/-- Source directory of a path entry: `at.map(|at| at.join(path))` with the
raw path as fallback. -/
def resolveSrc (at_ : Option String) (p : String) : String :=
  match at_ with
  | some a => a ++ "/" ++ p
  | none => p

/-- Model of the `Self::Path` rebuild of `Entry::lock`: `copy_wits`, then
`lock_deps` on the copied transitive map, then the digest of the output
directory. -/
def pathRebuild (p : String) (at_ : Option String) (out : DirPath) (w : EntryWorld) : EntryOutcome :=
  match w.pathCopy with
  | .err e => ⟨.err (.io e), [.copyDir (resolveSrc at_ p) out], w.outExists⟩
  | .ok up =>
    match lockDeps up.digestAt up.deps with
    | .err e => ⟨.err e, [.copyDir (resolveSrc at_ p) out], true⟩
    | .ok ds =>
      match up.digestAt out with
      | .err e => ⟨.err (.io e), [.copyDir (resolveSrc at_ p) out], true⟩
      | .ok d => ⟨.ok (⟨some (.path p), d, keyset ds⟩, ds), [.copyDir (resolveSrc at_ p) out], true⟩

/-- Rebuild of an entry according to its manifest kind. -/
def rebuild (entry : MEntry) (at_ : Option String) (out : DirPath) (w : EntryWorld) : EntryOutcome :=
  match entry with
  | .path p => pathRebuild p at_ out w
  | .url u s256 s512 subdir => urlRebuild u s256 s512 subdir out w

/-- Model of the fast-path match of `Entry::lock`: compare the recomputed
digest of the output directory, the lock source, and the recomputed
transitive digests; on full agreement return without any fetch or copy,
otherwise fall through to a rebuild. -/
def fastCheck (entry : MEntry) (at_ : Option String) (out : DirPath) (le : LockEntry)
    (w : EntryWorld) (depsRes : Res (List (Identifier × LockEntry))) : EntryOutcome :=
  match w.preDigestAt out, le.source, depsRes with
  | .ok d, some src, .ok ds =>
    if d = le.digest then
      match entry, src with
      | .url u s256 s512 subdir, .url lu lsubdir =>
        if u = lu ∧ subdir = lsubdir then
          ⟨.ok (⟨some (.url u subdir), d, keyset ds⟩, ds), [], w.outExists⟩
        else rebuild (.url u s256 s512 subdir) at_ out w
      | .path p, .path lp =>
        if p = lp then ⟨.ok (⟨some (.path p), d, keyset ds⟩, ds), [], w.outExists⟩
        else rebuild (.path p) at_ out w
      | e, _ => rebuild e at_ out w
    else rebuild entry at_ out w
  | _, _, _ => rebuild entry at_ out w

/-- Model of `Entry::lock` from manifest.rs.  With a previous lock entry, the
transitive digests are recomputed at the sanitized sibling paths (an output
path without a parent is an error when the previous entry lists transitive
dependencies), then the fast-path match runs; without a previous lock entry
the entry is rebuilt directly. -/
def entryLock (entry : MEntry) (at_ : Option String) (out : DirPath)
    (lockE : Option LockEntry) (w : EntryWorld) : EntryOutcome :=
  match lockE with
  | none => rebuild entry at_ out w
  | some le =>
    if le.deps.isEmpty then fastCheck entry at_ out le w (.ok [])
    else
      match out with
      | [] => ⟨.err (.noParent []), [], w.outExists⟩
      | _ :: _ =>
        fastCheck entry at_ out le w
          (lockDeps w.preDigestAt (le.deps.map fun tid => (tid, out.dropLast ++ [sanitizeId tid])))

/-- Per-entry output directory as computed by `Manifest::lock`:
`deps.join(&id)` with the identifier verbatim. -/
def outPathOf (depsDir : DirPath) (id : Identifier) : DirPath := depsDir ++ [id]

/-- Sibling path used by the fast path of `Entry::lock` for a previously
locked transitive dependency: the parent of the output directory joined with
the sanitized identifier. -/
def lockDepPath (base : DirPath) (id : Identifier) : DirPath := base ++ [sanitizeId id]

/-- One step of folding a transitive result into the accumulating lock
(`Manifest::lock`): an occupied slot requires digest equality and keeps the
existing entry; a mismatch fails the run; a vacant slot is filled. -/
def foldTrans (acc : Lock) : List (Identifier × LockEntry) → Res Lock
  | [] => .ok acc
  | kv :: rest =>
    match lockLookup acc kv.1 with
    | some e2 =>
      if e2.digest = kv.2.digest then foldTrans acc rest
      else .err (.transitiveConflict kv.1)
    | none => foldTrans (acc ++ [kv]) rest

/-- Insertion of a direct result into the accumulating lock: a duplicate
direct identifier is logged and the existing entry kept. -/
def insertDirect (acc : Lock) (id : Identifier) (e : LockEntry) : Lock :=
  match lockLookup acc id with
  | some _ => acc
  | none => acc ++ [(id, e)]

/-- Folding one per-entry result (direct entry plus transitive map) into the
accumulating lock. -/
def foldResult (acc : Lock) (id : Identifier) (e : LockEntry)
    (tds : List (Identifier × LockEntry)) : Res Lock :=
  foldTrans (insertDirect acc id e) tds

/-- Model of the body of `Manifest::lock`: process each manifest entry in
order against its world, folding results; an entry error is wrapped with the
identifier and aborts the run, as does a transitive conflict. -/
def manifestLockGo (at_ : Option String) (depsDir : DirPath) (old : Option Lock)
    (w : Identifier → EntryWorld) :
    List (Identifier × MEntry) → Lock → List Effect → Res Lock × List Effect
  | [], acc, effs => (.ok acc, effs)
  | ie :: rest, acc, effs =>
    let oc := entryLock ie.2 at_ (outPathOf depsDir ie.1)
      ((old.map fun l => lockLookup l ie.1).join) (w ie.1)
    match oc.result with
    | .err e => (.err (.entryFailed ie.1 e), effs ++ oc.effects)
    | .ok r =>
      match foldResult acc ie.1 r.1 r.2 with
      | .err e => (.err e, effs ++ oc.effects)
      | .ok acc2 => manifestLockGo at_ depsDir old w rest acc2 (effs ++ oc.effects)

/-- Model of `Manifest::lock`. -/
def manifestLock (m : List (Identifier × MEntry)) (at_ : Option String) (depsDir : DirPath)
    (old : Option Lock) (w : Identifier → EntryWorld) : Res Lock × List Effect :=
  manifestLockGo at_ depsDir old w m [] []

/-- One-sided containment of locks under lookup. -/
def lockContains (l1 l2 : Lock) : Bool :=
  l1.all fun kv => lockLookup l2 kv.1 == some kv.2

/-- Equality of locks as finite maps; for locks with pairwise distinct keys
this coincides with `BTreeMap` equality and hence, the serialization being
canonical, with byte equality of the encoded lock files. -/
def lockEqv (l1 l2 : Lock) : Bool := lockContains l1 l2 && lockContains l2 l1

/-- Model of the top-level `lock` function of lib.rs (TOML codec elided):
reconcile, then return `none` when the new lock equals the previous one, so
that no lock write occurs. -/
def lockTop (m : List (Identifier × MEntry)) (at_ : Option String) (depsDir : DirPath)
    (old : Option Lock) (w : Identifier → EntryWorld) : Res (Option Lock) × List Effect :=
  match manifestLock m at_ depsDir old w with
  | (.err e, effs) => (.err e, effs)
  | (.ok l, effs) =>
    match old with
    | some ol => if lockEqv l ol then (.ok none, effs) else (.ok (some l), effs)
    | none => (.ok (some l), effs)

/-- One archive entry: its path as components (`none` models a non-UTF-8
component, as `OsStr::to_str` yields) and its file content. -/
structure TarEnt where
  path : List (Option String)
  content : Nat
deriving DecidableEq, Repr

/-- Small file-system model: a map from file paths to contents. -/
abbrev FS := List (DirPath × Nat)

/-- Whether `p` lies inside the directory `d`. -/
def underDir : DirPath → DirPath → Bool
  | [], _ => true
  | _ :: _, [] => false
  | x :: xs, y :: ys => x == y && underDir xs ys

/-- Model of `remove_dir_all`/`recreate_dir` on the file map: drop every file
inside the directory. -/
def fsRemoveUnder (fs : FS) (d : DirPath) : FS := fs.filter fun f => !underDir d f.1

/-- Write a file, replacing any previous content at this path. -/
def fsWrite (fs : FS) (p : DirPath) (c : Nat) : FS :=
  (p, c) :: fs.filter fun f => f.1 != p

/-- Classification of one archive entry path, mirroring the five-component
tuple match of `untar` in lib.rs.  Since the match examines only the first
five components, the prefixed `wit/deps` arm also matches any longer path
whose second and third components are `wit` and `deps`. -/
inductive TarAction where
  | direct (name : String)
  | trans (id : Identifier) (name : String)
  | skipEnt
deriving DecidableEq, Repr

/-- The arm of the `untar` match an entry path selects. -/
def tarEntAction (skip : List Identifier) : List (Option String) → TarAction
  | [some a, some name] =>
    if a = "wit" ∧ isWit name then .direct name else .skipEnt
  | [_, some a, some name] =>
    if a = "wit" ∧ isWit name then .direct name else .skipEnt
  | [some a, some b, some id, some name] =>
    if a = "wit" ∧ b = "deps" ∧ skip.contains id = false ∧ isWit name then .trans id name
    else .skipEnt
  | _ :: some b :: some c :: some id :: some name :: _ =>
    if b = "wit" ∧ c = "deps" ∧ skip.contains id = false ∧ isWit name then .trans id name
    else .skipEnt
  | _ => .skipEnt

/-- State threaded through `untar`: the file map, the transitive map built so
far, and the trace of file writes performed. -/
structure UntarState where
  fs : FS
  map : List (Identifier × DirPath)
  writes : List (DirPath × Nat)
deriving DecidableEq, Repr

/-- Model of the entry loop of `untar` from lib.rs.  A direct entry is placed
flat in the destination.  A transitive entry, when the destination has a
parent, recreates the sibling directory `<dst>/../<id>` and places the file
there; the recreation happens for every such entry, and each `(id, sibling)`
pair is appended to the transitive map. -/
def untarGo (dst : DirPath) (skip : List Identifier) : List TarEnt → UntarState → UntarState
  | [], st => st
  | e :: rest, st =>
    match tarEntAction skip e.path with
    | .direct name =>
      untarGo dst skip rest
        { fs := fsWrite st.fs (dst ++ [name]) e.content
          map := st.map
          writes := st.writes ++ [(dst ++ [name], e.content)] }
    | .trans id name =>
      match dst with
      | [] => untarGo dst skip rest st
      | _ :: _ =>
        untarGo dst skip rest
          { fs := fsWrite (fsRemoveUnder st.fs (dst.dropLast ++ [id])) (dst.dropLast ++ [id, name]) e.content
            map := st.map ++ [(id, dst.dropLast ++ [id])]
            writes := st.writes ++ [(dst.dropLast ++ [id, name], e.content)] }
    | .skipEnt => untarGo dst skip rest st

/-- Model of `untar` from lib.rs: recreate the destination, then process the
archive entries in order.  The returned `map` lists the `(id, path)` pairs
collected into the transitive `HashMap` (the path is determined by the
identifier, so duplicate pairs collapse in the map). -/
def untarModel (ents : List TarEnt) (dst : DirPath) (skip : List Identifier) (fs0 : FS) : UntarState :=
  untarGo dst skip ents ⟨fsRemoveUnder fs0 dst, [], []⟩

/-- Spec-side write target of one archive entry, following the claimed
shapes verbatim: `[<any>/]wit/<name>.wit` placed flat in the destination, or
`[<any>/]wit/deps/<id>/<name>.wit` (exactly four or exactly five components)
placed in the sibling directory, with `<id>` not in the skip set. -/
def specWrite (dst : DirPath) (skip : List Identifier) (e : TarEnt) : Option (DirPath × Nat) :=
  match e.path with
  | [some a, some name] =>
    if a = "wit" ∧ isWit name then some (dst ++ [name], e.content) else none
  | [_, some a, some name] =>
    if a = "wit" ∧ isWit name then some (dst ++ [name], e.content) else none
  | [some a, some b, some id, some name] =>
    if a = "wit" ∧ b = "deps" ∧ skip.contains id = false ∧ isWit name then
      some (dst.dropLast ++ [id, name], e.content)
    else none
  | [_, some b, some c, some id, some name] =>
    if b = "wit" ∧ c = "deps" ∧ skip.contains id = false ∧ isWit name then
      some (dst.dropLast ++ [id, name], e.content)
    else none
  | _ => none

/-- Write target of one archive entry as the code computes it, read off the
arm of the `untar` match the entry path selects. -/
def codeWrite (dst : DirPath) (skip : List Identifier) (e : TarEnt) : Option (DirPath × Nat) :=
  match tarEntAction skip e.path with
  | .direct n => some (dst ++ [n], e.content)
  | .trans i n => some (dst.dropLast ++ [i, n], e.content)
  | .skipEnt => none

/-- Transitive-map contribution of one archive entry as the code computes
it. -/
def codeTrans (dst : DirPath) (skip : List Identifier) (e : TarEnt) : Option (Identifier × DirPath) :=
  match tarEntAction skip e.path with
  | .direct _ => none
  | .trans i _ => some (i, dst.dropLast ++ [i])
  | .skipEnt => none

/-- The direct shape of the claim: `[<any>/]wit/<name>.wit`, exactly two or
exactly three components. -/
def DirectShape (p : List (Option String)) (n : String) : Prop :=
  (p = [some "wit", some n] ∨ ∃ c0, p = [c0, some "wit", some n]) ∧ isWit n = true

/-- The transitive shape as the code accepts it: exactly
`wit/deps/<id>/<name>.wit`, or any path of five or more components whose
second and third components are `wit` and `deps` — components beyond the
fifth are never examined. -/
def TransShape (p : List (Option String)) (i : Identifier) (n : String) : Prop :=
  (p = [some "wit", some "deps", some i, some n] ∨
    ∃ c0 rest, p = c0 :: some "wit" :: some "deps" :: some i :: some n :: rest) ∧
    isWit n = true

/-- File type of a directory entry as `DirEntry::file_type` reports it,
without following symlinks. -/
inductive FType where
  | file
  | dir
  | symlink
deriving DecidableEq, Repr

/-- One directory entry, for the `read_wits`/`tar` model.  `targetIsDir`
records whether a symlink points at a directory; `read_wits` never consults
it. -/
structure DirEnt where
  name : String
  ftype : FType
  targetIsDir : Bool
deriving DecidableEq, Repr

/-- Model of `read_wits` from lib.rs: keep an entry iff its name has a `.wit`
extension (ASCII-case-insensitively) and its unfollowed file type is not a
directory. -/
def readWits (l : List DirEnt) : List String :=
  l.filterMap fun e =>
    if isWit e.name = false then none
    else if e.ftype = .dir then none
    else some e.name

/-- Output of the `tar` packer: whether deterministic header mode was set,
and the archive entry paths in order. -/
structure TarOut where
  deterministic : Bool
  entries : List DirPath
deriving DecidableEq, Repr

/-- Model of `tar` from lib.rs: collect the `read_wits` names into a
`BTreeSet` (sorted, deduplicated) and append each as `wit/<name>` in
deterministic header mode. -/
def tarModel (l : List DirEnt) : TarOut :=
  ⟨true, (sortDedup (readWits l)).map fun n => ["wit", n]⟩

/-- Digest recorded in a lock for an identifier (zero digest when absent);
used to phrase recomputed-digest hypotheses. -/
def lookDigest (L : Lock) (tid : Identifier) : Digest :=
  match lockLookup L tid with
  | some te => te.digest
  | none => ⟨0, 0⟩

/-- Conditions under which one manifest entry hits the fast path of
`Entry::lock` against the previous lock `L` and the on-disk state described
by `w`, with every recomputed digest agreeing with `L` — exactly what a first
successful run leaves behind for this entry. -/
def FastOK (depsDir : DirPath) (w : Identifier → EntryWorld) (L : Lock)
    (pinned : List Identifier) (id : Identifier) (e : MEntry) : Prop :=
  ∃ le, lockLookup L id = some le ∧
    le.source = some e.sourceOf ∧
    (w id).preDigestAt (outPathOf depsDir id) = .ok le.digest ∧
    sortDedup le.deps = le.deps ∧
    ∀ tid ∈ le.deps, tid ∉ pinned ∧
      ∃ te, lockLookup L tid = some te ∧ te.source = none ∧ te.deps = [] ∧
        (w id).preDigestAt (lockDepPath depsDir tid) = .ok te.digest

/-- Every key of `L` is either a direct manifest identifier or listed among
the transitive dependencies of some direct entry of `L` — the key-coverage a
first successful run guarantees. -/
def Covers (m : List (Identifier × MEntry)) (L : Lock) : Prop :=
  ∀ k ∈ lockKeys L, (∃ e, (k, e) ∈ m) ∨
    ∃ i ei le, (i, ei) ∈ m ∧ lockLookup L i = some le ∧ k ∈ le.deps

/-- Pin satisfaction: an absent pin is satisfied, a supplied pin must equal
the digest component. -/
def pinOk (pin : Option Nat) (v : Nat) : Prop := ∀ p, pin = some p → p = v

theorem dropLast_append_single (l : List String) (a : String) : (l ++ [a]).dropLast = l := by
  simp

theorem append_single_ne_nil (l : List String) (a : String) : l ++ [a] ≠ [] := by
  simp

theorem lockLookup_append_one (acc : Lock) (x : Identifier × LockEntry) (k : Identifier) :
    lockLookup (acc ++ [x]) k =
      match lockLookup acc k with
      | some v => some v
      | none => if x.1 = k then some x.2 else none := by
  induction acc with
  | nil => rfl
  | cons y ys ih =>
    simp only [List.cons_append, lockLookup]
    by_cases hy : y.1 = k <;> simp [hy, ih]

theorem lockLookup_eq_none_iff (l : Lock) (k : Identifier) :
    lockLookup l k = none ↔ k ∉ lockKeys l := by
  induction l with
  | nil => simp [lockLookup, lockKeys]
  | cons y ys ih =>
    simp only [lockLookup, lockKeys, List.map_cons, List.mem_cons]
    by_cases hy : y.1 = k <;> simp [hy, ih, lockKeys, Ne.symm]

theorem mem_lockKeys_of_lookup {l : Lock} {k : Identifier} {v : LockEntry}
    (h : lockLookup l k = some v) : k ∈ lockKeys l := by
  by_contra hk
  rw [← lockLookup_eq_none_iff] at hk
  rw [h] at hk
  cases hk

theorem lockLookup_isSome_iff (l : Lock) (k : Identifier) :
    (lockLookup l k).isSome ↔ k ∈ lockKeys l := by
  cases h : lockLookup l k with
  | none => simp [h, (lockLookup_eq_none_iff l k).mp h]
  | some v => simp [mem_lockKeys_of_lookup h]

theorem lockLookup_mem_of_nodup {l : Lock} (h : (lockKeys l).Nodup) {k : Identifier}
    {v : LockEntry} (hm : (k, v) ∈ l) : lockLookup l k = some v := by
  induction l with
  | nil => cases hm
  | cons y ys ih =>
    simp only [lockKeys, List.map_cons, List.nodup_cons] at h
    rcases List.mem_cons.mp hm with he | hm2
    · subst he; simp [lockLookup]
    · have hk : k ∈ lockKeys ys := by
        simpa [lockKeys] using List.mem_map_of_mem (fun kv => kv.1) hm2
      have hy : y.1 ≠ k := fun hc => h.1 (hc ▸ hk)
      simp [lockLookup, hy, ih h.2 hm2]

theorem lockEqv_of_pointwise {l1 l2 : Lock} (h1 : (lockKeys l1).Nodup)
    (h2 : (lockKeys l2).Nodup) (hp : ∀ k, lockLookup l1 k = lockLookup l2 k) :
    lockEqv l1 l2 = true := by
  simp only [lockEqv, lockContains, Bool.and_eq_true, List.all_eq_true, beq_iff_eq]
  constructor
  · intro kv hkv
    rw [← hp kv.1]
    exact lockLookup_mem_of_nodup h1 hkv
  · intro kv hkv
    rw [hp kv.1]
    exact lockLookup_mem_of_nodup h2 hkv

theorem lockDeps_map (dAt : DirPath → DigRes) (ids : List Identifier)
    (pf : Identifier → DirPath) (g : Identifier → Digest)
    (h : ∀ tid ∈ ids, dAt (pf tid) = .ok (g tid)) :
    lockDeps dAt (ids.map fun tid => (tid, pf tid)) =
      .ok (ids.map fun tid => (tid, ⟨none, g tid, []⟩)) := by
  induction ids with
  | nil => rfl
  | cons t ts ih =>
    have ht : dAt (pf t) = .ok (g t) := h t (List.mem_cons_self t ts)
    have hrest := ih fun tid htid => h tid (List.mem_cons_of_mem t htid)
    simp only [List.map_cons, lockDeps, ht, hrest]

theorem lockDeps_shape (dAt : DirPath → DigRes) (l : List (Identifier × DirPath))
    (res : List (Identifier × LockEntry)) (h : lockDeps dAt l = .ok res) :
    ∀ kv ∈ res, kv.2.source = none ∧ kv.2.deps = [] := by
  induction l generalizing res with
  | nil =>
    simp only [lockDeps] at h
    cases h
    simp
  | cons x xs ih =>
    simp only [lockDeps] at h
    cases hd : dAt x.2 with
    | err e => rw [hd] at h; cases h
    | ok d =>
      rw [hd] at h
      cases hrec : lockDeps dAt xs with
      | err e => rw [hrec] at h; cases h
      | ok tl =>
        rw [hrec] at h
        cases h
        intro kv hkv
        rcases List.mem_cons.mp hkv with he | hm2
        · subst he; exact ⟨rfl, rfl⟩
        · exact ih tl hrec kv hm2

theorem keyset_map_trans (ldeps : List Identifier) (g : Identifier → Digest) :
    keyset (ldeps.map fun tid => (tid, (⟨none, g tid, []⟩ : LockEntry))) = sortDedup ldeps := by
  simp only [keyset, idsOf, List.map_map]
  have hc : ((fun kv : Identifier × LockEntry => kv.1) ∘
      fun tid => (tid, (⟨none, g tid, []⟩ : LockEntry))) = fun tid => tid := rfl
  rw [hc]
  simp

theorem entryLock_fast (e : MEntry) (at_ : Option String) (out : DirPath) (w : EntryWorld)
    (dig : Digest) (ldeps : List Identifier) (g : Identifier → Digest)
    (hout : out ≠ [])
    (hdig : w.preDigestAt out = .ok dig)
    (hsort : sortDedup ldeps = ldeps)
    (htids : ∀ tid ∈ ldeps, w.preDigestAt (out.dropLast ++ [sanitizeId tid]) = .ok (g tid)) :
    entryLock e at_ out (some ⟨some e.sourceOf, dig, ldeps⟩) w =
      ⟨.ok (⟨some e.sourceOf, dig, ldeps⟩,
        ldeps.map fun tid => (tid, ⟨none, g tid, []⟩)), [], w.outExists⟩ := by
  have hks := keyset_map_trans ldeps g
  rw [hsort] at hks
  cases ldeps with
  | nil =>
    cases e with
    | url u s256 s512 subdir =>
      simp [entryLock, fastCheck, hdig, MEntry.sourceOf, keyset, idsOf, sortDedup]
    | path p =>
      simp [entryLock, fastCheck, hdig, MEntry.sourceOf, keyset, idsOf, sortDedup]
  | cons t ts =>
    rcases out with _ | ⟨o, os⟩
    · exact absurd rfl hout
    have hdres := lockDeps_map w.preDigestAt (t :: ts)
      (fun tid => (o :: os).dropLast ++ [sanitizeId tid]) g htids
    simp only [List.map_cons] at hdres hks
    cases e with
    | url u s256 s512 subdir =>
      simp [entryLock, fastCheck, hdig, hdres, MEntry.sourceOf, hks]
    | path p =>
      simp [entryLock, fastCheck, hdig, hdres, MEntry.sourceOf, hks]

theorem foldTrans_spec (L : Lock) (tds : List (Identifier × LockEntry)) :
    ∀ acc : Lock,
    (∀ k v, lockLookup acc k = some v → lockLookup L k = some v) →
    (∀ kv ∈ tds, lockLookup L kv.1 = some kv.2) →
    ∃ acc2, foldTrans acc tds = .ok acc2 ∧
      (∀ k v, lockLookup acc2 k = some v → lockLookup L k = some v) ∧
      (∀ k v, lockLookup acc k = some v → lockLookup acc2 k = some v) ∧
      (∀ kv ∈ tds, (lockLookup acc2 kv.1).isSome) ∧
      (∀ k, (lockLookup acc2 k).isSome →
        (lockLookup acc k).isSome ∨ k ∈ tds.map fun kv => kv.1) ∧
      ((lockKeys acc).Nodup → (lockKeys acc2).Nodup) := by
  induction tds with
  | nil =>
    intro acc hsub _
    exact ⟨acc, rfl, hsub, fun _ _ h => h, by simp, fun k h => Or.inl h, fun h => h⟩
  | cons kv rest ih =>
    intro acc hsub htds
    have hkvL : lockLookup L kv.1 = some kv.2 := htds kv (List.mem_cons_self kv rest)
    cases hl : lockLookup acc kv.1 with
    | some e2 =>
      have he2 : e2 = kv.2 := by
        have := hsub kv.1 e2 hl
        rw [hkvL] at this
        exact (Option.some_inj.mp this).symm
      obtain ⟨acc2, hft, hsubL, hpres, hmemt, hgrow, hnod⟩ :=
        ih acc hsub fun x hx => htds x (List.mem_cons_of_mem kv hx)
      refine ⟨acc2, ?_, hsubL, hpres, ?_, ?_, hnod⟩
      · simp [foldTrans, hl, he2, hft]
      · intro x hx
        rcases List.mem_cons.mp hx with he | hm
        · subst he
          have := hpres x.1 e2 hl
          simp [this]
        · exact hmemt x hm
      · intro k hk
        rcases hgrow k hk with h | h
        · exact Or.inl h
        · refine Or.inr ?_
          simp only [List.map_cons, List.mem_cons]
          exact Or.inr (by simpa using h)
    | none =>
      have hsub2 : ∀ k v, lockLookup (acc ++ [kv]) k = some v → lockLookup L k = some v := by
        intro k v hk
        rw [lockLookup_append_one] at hk
        cases hacc : lockLookup acc k with
        | some v2 =>
          rw [hacc] at hk
          cases hk
          exact hsub k v hacc
        | none =>
          rw [hacc] at hk
          by_cases hik : kv.1 = k
          · rw [if_pos hik] at hk
            cases hk
            exact hik ▸ hkvL
          · rw [if_neg hik] at hk
            cases hk
      obtain ⟨acc2, hft, hsubL, hpres, hmemt, hgrow, hnod⟩ :=
        ih (acc ++ [kv]) hsub2 fun x hx => htds x (List.mem_cons_of_mem kv hx)
      have hpres1 : ∀ k v, lockLookup acc k = some v → lockLookup (acc ++ [kv]) k = some v := by
        intro k v hk
        rw [lockLookup_append_one, hk]
      have hkvIn : lockLookup (acc ++ [kv]) kv.1 = some kv.2 := by
        rw [lockLookup_append_one, hl, if_pos rfl]
      refine ⟨acc2, ?_, hsubL, ?_, ?_, ?_, ?_⟩
      · simp only [foldTrans, hl, hft]
      · intro k v hk
        exact hpres k v (hpres1 k v hk)
      · intro x hx
        rcases List.mem_cons.mp hx with he | hm
        · subst he
          simp [hpres x.1 x.2 hkvIn]
        · exact hmemt x hm
      · intro k hk
        rcases hgrow k hk with h | h
        · rw [Option.isSome_iff_exists] at h
          obtain ⟨v, hv⟩ := h
          rw [lockLookup_append_one] at hv
          cases hacc : lockLookup acc k with
          | some v2 =>
            left
            simp [hacc]
          | none =>
            rw [hacc] at hv
            by_cases hik : kv.1 = k
            · right
              simp [← hik]
            · rw [if_neg hik] at hv
              cases hv
        · right
          simp only [List.map_cons, List.mem_cons]
          exact Or.inr h
      · intro hnodA
        apply hnod
        have hkk : kv.1 ∉ lockKeys acc := (lockLookup_eq_none_iff acc kv.1).mp hl
        have hspl : lockKeys (acc ++ [kv]) = lockKeys acc ++ [kv.1] := by
          simp [lockKeys]
        rw [hspl]
        refine List.Nodup.append hnodA (List.nodup_singleton kv.1) ?_
        intro a ha hb
        rw [List.mem_singleton] at hb
        exact hkk (hb ▸ ha)

theorem manifestLockGo_fast (at_ : Option String) (depsDir : DirPath) (L : Lock)
    (w : Identifier → EntryWorld) (pinned : List Identifier) :
    ∀ (rest : List (Identifier × MEntry)) (acc : Lock) (effs : List Effect),
    (∀ id e, (id, e) ∈ rest → FastOK depsDir w L pinned id e) →
    ((rest.map fun kv => kv.1).Nodup) →
    (∀ id ∈ rest.map fun kv => kv.1, id ∈ pinned) →
    (∀ k v, lockLookup acc k = some v → lockLookup L k = some v) →
    (∀ k, (lockLookup acc k).isSome → ¬(k ∈ pinned ∧ k ∈ rest.map fun kv => kv.1)) →
    ((lockKeys acc).Nodup) →
    ∃ acc2, manifestLockGo at_ depsDir (some L) w rest acc effs = (.ok acc2, effs) ∧
      (∀ k v, lockLookup acc2 k = some v → lockLookup L k = some v) ∧
      (∀ k v, lockLookup acc k = some v → lockLookup acc2 k = some v) ∧
      (∀ id ∈ rest.map fun kv => kv.1, (lockLookup acc2 id).isSome) ∧
      (∀ id e le, (id, e) ∈ rest → lockLookup L id = some le →
        ∀ tid ∈ le.deps, (lockLookup acc2 tid).isSome) ∧
      (lockKeys acc2).Nodup := by
  intro rest
  induction rest with
  | nil =>
    intro acc effs _ _ _ hsub _ hnodA
    exact ⟨acc, rfl, hsub, fun _ _ h => h, by simp, by simp, hnodA⟩
  | cons ie rest ih =>
    intro acc effs hfast hnod hpin hsub hsep hnodA
    obtain ⟨id, e⟩ := ie
    obtain ⟨le, hlk, hsrc, hdig, hsort, htids⟩ :=
      hfast id e (List.mem_cons_self _ _)
    obtain ⟨lsrc, ldig, ldeps⟩ := le
    simp only at hsrc hdig hsort htids
    subst hsrc
    have hout : outPathOf depsDir id ≠ [] := by simp [outPathOf]
    have hdl : (outPathOf depsDir id).dropLast = depsDir := by simp [outPathOf]
    have htids2 : ∀ tid ∈ ldeps,
        (w id).preDigestAt ((outPathOf depsDir id).dropLast ++ [sanitizeId tid]) =
          .ok (lookDigest L tid) := by
      intro tid htid
      obtain ⟨-, te, hte, -, -, hpd⟩ := htids tid htid
      rw [hdl]
      rw [show lookDigest L tid = te.digest by simp [lookDigest, hte]]
      exact hpd
    have hel := entryLock_fast e at_ (outPathOf depsDir id) (w id) ldig ldeps
      (lookDigest L) hout hdig hsort htids2
    have hjoin : ((some L).map fun l => lockLookup l id).join = lockLookup L id := rfl
    have hstep : manifestLockGo at_ depsDir (some L) w ((id, e) :: rest) acc effs =
        match foldResult acc id ⟨some e.sourceOf, ldig, ldeps⟩
          (ldeps.map fun tid => (tid, ⟨none, lookDigest L tid, []⟩)) with
        | .err e2 => (.err e2, effs)
        | .ok acc2 => manifestLockGo at_ depsDir (some L) w rest acc2 effs := by
      simp only [manifestLockGo, hjoin, hlk, hel, List.append_nil]
    have hidpin : id ∈ pinned := hpin id (by simp)
    have hlacc : lockLookup acc id = none := by
      cases hla : lockLookup acc id with
      | none => rfl
      | some v =>
        exact absurd ⟨hidpin, by simp⟩ (hsep id (by simp [hla]))
    have hdirIns : insertDirect acc id ⟨some e.sourceOf, ldig, ldeps⟩ =
        acc ++ [(id, ⟨some e.sourceOf, ldig, ldeps⟩)] := by
      simp [insertDirect, hlacc]
    have hsubA : ∀ k v,
        lockLookup (acc ++ [(id, ⟨some e.sourceOf, ldig, ldeps⟩)]) k = some v →
          lockLookup L k = some v := by
      intro k v hk
      rw [lockLookup_append_one] at hk
      cases hacc : lockLookup acc k with
      | some v2 =>
        rw [hacc] at hk
        cases hk
        exact hsub k v hacc
      | none =>
        rw [hacc] at hk
        by_cases hik : id = k
        · rw [if_pos hik] at hk
          cases hk
          exact hik ▸ hlk
        · rw [if_neg hik] at hk
          cases hk
    have htdsL : ∀ kv ∈ ldeps.map fun tid =>
        (tid, (⟨none, lookDigest L tid, []⟩ : LockEntry)),
        lockLookup L kv.1 = some kv.2 := by
      intro kv hkv
      rw [List.mem_map] at hkv
      obtain ⟨tid, htid, hkveq⟩ := hkv
      obtain ⟨-, te, hte, htsrc, htdeps, -⟩ := htids tid htid
      subst hkveq
      simp only
      rw [hte]
      congr 1
      cases te
      simp only at htsrc htdeps
      subst htsrc
      subst htdeps
      simp [lookDigest, hte]
    obtain ⟨accT, hft, hsubT, hpresT, hmemT, hgrowT, hnodT⟩ :=
      foldTrans_spec L (ldeps.map fun tid => (tid, ⟨none, lookDigest L tid, []⟩))
        (acc ++ [(id, ⟨some e.sourceOf, ldig, ldeps⟩)]) hsubA htdsL
    have hpres1 : ∀ k v, lockLookup acc k = some v →
        lockLookup (acc ++ [(id, ⟨some e.sourceOf, ldig, ldeps⟩)]) k = some v := by
      intro k v hk
      rw [lockLookup_append_one, hk]
    have hidIn : lockLookup (acc ++ [(id, ⟨some e.sourceOf, ldig, ldeps⟩)]) id =
        some ⟨some e.sourceOf, ldig, ldeps⟩ := by
      rw [lockLookup_append_one, hlacc, if_pos rfl]
    have hfr : foldResult acc id ⟨some e.sourceOf, ldig, ldeps⟩
        (ldeps.map fun tid => (tid, ⟨none, lookDigest L tid, []⟩)) = .ok accT := by
      rw [foldResult, hdirIns, hft]
    have hnodT2 : (lockKeys accT).Nodup := by
      apply hnodT
      have hkk : id ∉ lockKeys acc := (lockLookup_eq_none_iff acc id).mp hlacc
      have hspl : lockKeys (acc ++ [(id, ⟨some e.sourceOf, ldig, ldeps⟩)]) =
          lockKeys acc ++ [id] := by simp [lockKeys]
      rw [hspl]
      refine List.Nodup.append hnodA (List.nodup_singleton id) ?_
      intro a ha hb
      rw [List.mem_singleton] at hb
      exact hkk (hb ▸ ha)
    have hsepT : ∀ k, (lockLookup accT k).isSome →
        ¬(k ∈ pinned ∧ k ∈ rest.map fun kv => kv.1) := by
      intro k hk ⟨hkp, hkr⟩
      rcases hgrowT k hk with h | h
      · rw [Option.isSome_iff_exists] at h
        obtain ⟨v, hv⟩ := h
        rw [lockLookup_append_one] at hv
        cases hacc : lockLookup acc k with
        | some v2 =>
          exact hsep k (by simp [hacc]) ⟨hkp, by simp [hkr]⟩
        | none =>
          rw [hacc] at hv
          by_cases hik : id = k
          · subst hik
            have hnr : id ∉ rest.map fun kv => kv.1 := by
              simp only [List.map_cons, List.nodup_cons] at hnod
              exact hnod.1
            exact hnr hkr
          · rw [if_neg hik] at hv
            cases hv
      · rw [List.mem_map] at h
        obtain ⟨kv2, hkv2, hkv2eq⟩ := h
        rw [List.mem_map] at hkv2
        obtain ⟨tid2, htid2, hteq⟩ := hkv2
        have hk2 : tid2 = k := by rw [← hkv2eq, ← hteq]
        subst hk2
        exact (htids tid2 htid2).1 hkp
    have hnodRest : (rest.map fun kv => kv.1).Nodup := by
      simp only [List.map_cons, List.nodup_cons] at hnod
      exact hnod.2
    have hpinRest : ∀ i2 ∈ rest.map fun kv => kv.1, i2 ∈ pinned := by
      intro i2 h2
      exact hpin i2 (by simp only [List.map_cons, List.mem_cons]; exact Or.inr h2)
    obtain ⟨acc2, hgo, hsub2, hpres2, hmem2, htrans2, hnod2⟩ :=
      ih accT effs (fun i2 e2 h2 => hfast i2 e2 (List.mem_cons_of_mem _ h2))
        hnodRest hpinRest hsubT hsepT hnodT2
    refine ⟨acc2, ?_, hsub2, ?_, ?_, ?_, hnod2⟩
    · rw [hstep, hfr]
      simpa using hgo
    · intro k v hk
      exact hpres2 k v (hpresT k v (hpres1 k v hk))
    · intro i2 hi2
      simp only [List.map_cons, List.mem_cons] at hi2
      rcases hi2 with he2 | hm2
      · subst he2
        have := hpres2 i2 _ (hpresT i2 _ hidIn)
        simp [this]
      · exact hmem2 i2 hm2
    · intro i2 e2 le2 hmem hlk2 tid htid
      rcases List.mem_cons.mp hmem with he2 | hm2
      · have hi2 : i2 = id := congrArg Prod.fst he2
        subst hi2
        rw [hlk] at hlk2
        cases hlk2
        have : (lockLookup accT tid).isSome := by
          apply hmemT (tid, ⟨none, lookDigest L tid, []⟩)
          rw [List.mem_map]
          exact ⟨tid, htid, rfl⟩
        rw [Option.isSome_iff_exists] at this
        obtain ⟨v, hv⟩ := this
        have := hpres2 tid v hv
        simp [this]
      · exact htrans2 i2 e2 le2 hm2 hlk2 tid htid

/-- Counterexample to C1 as stated: a first successful run materializes a
transitive sibling at the verbatim path (`untar` and `copy_wits` join the
raw identifier), but the fast path recomputes its digest at the sanitized
path, so for the transitive identifier `x:y` the in-sync state the first
run left — output digest and verbatim-path sibling digest both agreeing
with the lock, sanitized path absent — makes the second run rebuild and
fetch over HTTP.  The refetched lock is still equal to `L`, so `lockTop`
returns `none`, but the effect trace contains a fetch, refuting "performs
no fetch or copy". -/
theorem wd_c1_lock_idempotent_cex :
    lockLookup
      [("a", ⟨some (.url ⟨"https", "h/x"⟩ "wit"), ⟨1, 1⟩, ["x:y"]⟩),
       ("x:y", ⟨none, ⟨2, 2⟩, []⟩)] "x:y" = some ⟨none, ⟨2, 2⟩, []⟩ ∧
    ((fun (_ : Identifier) => (⟨fun p =>
        if p = ["deps", "a"] then .ok ⟨1, 1⟩
        else if p = ["deps", "x:y"] then .ok ⟨2, 2⟩
        else .err .notFound,
      true, none,
      .ok ⟨5, 9⟩ (.ok ⟨[("x:y", ["deps", "x:y"])], fun p =>
        if p = ["deps", "a"] then .ok ⟨1, 1⟩
        else if p = ["deps", "x:y"] then .ok ⟨2, 2⟩
        else .err .notFound⟩),
      .err .other⟩ : EntryWorld)) "a").preDigestAt ["deps", "x:y"] = .ok ⟨2, 2⟩ ∧
    lockTop [(("a" : Identifier), MEntry.url ⟨"https", "h/x"⟩ none none "wit")] none ["deps"]
      (some [("a", ⟨some (.url ⟨"https", "h/x"⟩ "wit"), ⟨1, 1⟩, ["x:y"]⟩),
             ("x:y", ⟨none, ⟨2, 2⟩, []⟩)])
      (fun _ => ⟨fun p =>
          if p = ["deps", "a"] then .ok ⟨1, 1⟩
          else if p = ["deps", "x:y"] then .ok ⟨2, 2⟩
          else .err .notFound,
        true, none,
        .ok ⟨5, 9⟩ (.ok ⟨[("x:y", ["deps", "x:y"])], fun p =>
          if p = ["deps", "a"] then .ok ⟨1, 1⟩
          else if p = ["deps", "x:y"] then .ok ⟨2, 2⟩
          else .err .notFound⟩),
        .err .other⟩) =
      (.ok none, [.fetch ⟨"https", "h/x"⟩]) ∧
    ([Effect.fetch ⟨"https", "h/x"⟩] : List Effect) ≠ [] := by
  exact ⟨by decide, by decide, by decide, by decide⟩

/-- C1 as amended: idempotence of reconciliation holds whenever every
recomputed digest the fast path reads succeeds and agrees with the previous
lock `L` — `FastOK` demands, besides matching source and output digest, that
each listed transitive identifier's digest recomputes at the *sanitized*
sibling path `<deps>/<id with : replaced by _>`.  For a first-run state this
holds exactly when no transitive identifier contains `:` (the first run
writes siblings at the verbatim path, the fast path reads the sanitized
one, so an identifier with `:` forces a refetch).  Under these hypotheses,
with lock keys covered by the manifest, the second run performs no effect at
all — in particular no fetch and no copy — returns a lock that agrees with
`L` on every key (hence, the serialization being canonical, is byte-equal to
`L`), and the top-level lock function returns `none`, so no lock write
occurs. -/
theorem wd_c1_lock_idempotent (m : List (Identifier × MEntry)) (L : Lock)
    (at_ : Option String) (depsDir : DirPath) (w : Identifier → EntryWorld)
    (hm : (m.map fun kv => kv.1).Nodup)
    (hL : (lockKeys L).Nodup)
    (hfast : ∀ id e, (id, e) ∈ m → FastOK depsDir w L (m.map fun kv => kv.1) id e)
    (hcov : Covers m L) :
    ∃ L2, manifestLock m at_ depsDir (some L) w = (.ok L2, []) ∧
      (∀ k, lockLookup L2 k = lockLookup L k) ∧
      lockTop m at_ depsDir (some L) w = (.ok none, []) := by
  obtain ⟨acc2, hgo, hsubL, -, hmemD, hmemT, hnod2⟩ :=
    manifestLockGo_fast at_ depsDir L w (m.map fun kv => kv.1) m [] []
      hfast hm (fun id h => h)
      (fun k v h => by simp [lockLookup] at h)
      (fun k h => by simp [lockLookup] at h)
      (by simp [lockKeys])
  have hpoint : ∀ k, lockLookup acc2 k = lockLookup L k := by
    intro k
    cases hLk : lockLookup L k with
    | some v =>
      have hkK : k ∈ lockKeys L := mem_lockKeys_of_lookup hLk
      have hsome : (lockLookup acc2 k).isSome := by
        rcases hcov k hkK with ⟨e, hme⟩ | ⟨i, ei, le, hmi, hlki, htid⟩
        · exact hmemD k (by simpa using List.mem_map_of_mem (fun kv => kv.1) hme)
        · exact hmemT i ei le hmi hlki k htid
      rw [Option.isSome_iff_exists] at hsome
      obtain ⟨v2, hv2⟩ := hsome
      have hvv := hsubL k v2 hv2
      rw [hLk] at hvv
      rw [hv2, Option.some_inj.mp hvv]
    | none =>
      cases hacc : lockLookup acc2 k with
      | none => rfl
      | some v =>
        have := hsubL k v hacc
        rw [hLk] at this
        cases this
  have hml : manifestLock m at_ depsDir (some L) w = (.ok acc2, []) := hgo
  have heqv : lockEqv acc2 L = true := lockEqv_of_pointwise hnod2 hL hpoint
  refine ⟨acc2, hml, hpoint, ?_⟩
  simp [lockTop, hml, heqv]

/-- Witness for C1 at a concrete manifest with one URL entry carrying one
transitive dependency: the fast-path hypotheses hold and the second run
returns `none` with an empty effect trace. -/
theorem wd_c1_lock_idempotent_witness :
    (∀ id e, (id, e) ∈ [(("foo" : Identifier),
        MEntry.url ⟨"https", "example.com/foo.tar.gz"⟩ none none "wit")] →
      FastOK ["wit", "deps"]
        (fun _ => ⟨fun p =>
            if p = ["wit", "deps", "foo"] then .ok ⟨1, 2⟩
            else if p = ["wit", "deps", "t"] then .ok ⟨3, 4⟩
            else .err .notFound,
          true, none, .err, .err .other⟩)
        [("foo", ⟨some (.url ⟨"https", "example.com/foo.tar.gz"⟩ "wit"), ⟨1, 2⟩, ["t"]⟩),
         ("t", ⟨none, ⟨3, 4⟩, []⟩)]
        ["foo"] id e) ∧
    lockTop [(("foo" : Identifier),
        MEntry.url ⟨"https", "example.com/foo.tar.gz"⟩ none none "wit")] none ["wit", "deps"]
      (some [("foo", ⟨some (.url ⟨"https", "example.com/foo.tar.gz"⟩ "wit"), ⟨1, 2⟩, ["t"]⟩),
             ("t", ⟨none, ⟨3, 4⟩, []⟩)])
      (fun _ => ⟨fun p =>
          if p = ["wit", "deps", "foo"] then .ok ⟨1, 2⟩
          else if p = ["wit", "deps", "t"] then .ok ⟨3, 4⟩
          else .err .notFound,
        true, none, .err, .err .other⟩) = (.ok none, []) := by
  have hfast : ∀ id e, (id, e) ∈ [(("foo" : Identifier),
      MEntry.url ⟨"https", "example.com/foo.tar.gz"⟩ none none "wit")] →
      FastOK ["wit", "deps"]
        (fun _ => ⟨fun p =>
            if p = ["wit", "deps", "foo"] then .ok ⟨1, 2⟩
            else if p = ["wit", "deps", "t"] then .ok ⟨3, 4⟩
            else .err .notFound,
          true, none, .err, .err .other⟩)
        [("foo", ⟨some (.url ⟨"https", "example.com/foo.tar.gz"⟩ "wit"), ⟨1, 2⟩, ["t"]⟩),
         ("t", ⟨none, ⟨3, 4⟩, []⟩)]
        ["foo"] id e := by
    intro id e h
    simp only [List.mem_singleton, Prod.mk.injEq] at h
    obtain ⟨h1, h2⟩ := h
    subst h1
    subst h2
    refine ⟨⟨some (.url ⟨"https", "example.com/foo.tar.gz"⟩ "wit"), ⟨1, 2⟩, ["t"]⟩,
      by decide, rfl, by decide, by decide, ?_⟩
    intro tid htid
    simp only [List.mem_singleton] at htid
    subst htid
    exact ⟨by decide, ⟨none, ⟨3, 4⟩, []⟩, by decide, rfl, rfl, by decide⟩
  have hcov : Covers [(("foo" : Identifier),
      MEntry.url ⟨"https", "example.com/foo.tar.gz"⟩ none none "wit")]
      [("foo", ⟨some (.url ⟨"https", "example.com/foo.tar.gz"⟩ "wit"), ⟨1, 2⟩, ["t"]⟩),
       ("t", ⟨none, ⟨3, 4⟩, []⟩)] := by
    intro k hk
    simp only [lockKeys, List.map_cons, List.map_nil, List.mem_cons, List.not_mem_nil,
      or_false] at hk
    rcases hk with hk | hk
    · subst hk
      exact Or.inl ⟨MEntry.url ⟨"https", "example.com/foo.tar.gz"⟩ none none "wit", by simp⟩
    · subst hk
      refine Or.inr ⟨"foo", MEntry.url ⟨"https", "example.com/foo.tar.gz"⟩ none none "wit",
        ⟨some (.url ⟨"https", "example.com/foo.tar.gz"⟩ "wit"), ⟨1, 2⟩, ["t"]⟩,
        by simp, by decide, by decide⟩
  refine ⟨hfast, ?_⟩
  obtain ⟨L2, -, -, h3⟩ := wd_c1_lock_idempotent _ _ none _ _
    (by decide) (by decide) hfast hcov
  exact h3

/-- C2: Pin enforcement on network fetch.  With no cache and no previous
lock entry, a URL entry whose archive is fetched over HTTP succeeds iff
every supplied pin equals the corresponding hash of the digest computed by
the fetch-and-unpack pipeline; on a mismatch the entry aborts with the error
carrying the offending hash family and both values (rendered as hex in its
message), the output directory is removed, and it does not exist after the
failed run. -/
theorem wd_c2_pin_enforcement (u : UrlV) (s256 s512 : Option Nat) (subdir : String)
    (at_ : Option String) (out : DirPath) (w : EntryWorld)
    (sd : Digest) (up : Unpacked) (ds : List (Identifier × LockEntry)) (d : Digest)
    (hscheme : u.scheme = "http" ∨ u.scheme = "https")
    (hcache : w.cache = none)
    (hfetch : w.fetch = .ok sd (.ok up))
    (hld : lockDeps up.digestAt up.deps = .ok ds)
    (hdout : up.digestAt out = .ok d) :
    ((∃ r, (entryLock (.url u s256 s512 subdir) at_ out none w).result = .ok r) ↔
      pinOk s256 sd.sha256 ∧ pinOk s512 sd.sha512) ∧
    (∀ p, s256 = some p → p ≠ sd.sha256 →
      entryLock (.url u s256 s512 subdir) at_ out none w =
        ⟨.err (.sha256Mismatch u sd.sha256 p), [.fetch u, .removeDir out], false⟩) ∧
    (∀ q, pinOk s256 sd.sha256 → s512 = some q → q ≠ sd.sha512 →
      entryLock (.url u s256 s512 subdir) at_ out none w =
        ⟨.err (.sha512Mismatch u sd.sha512 q), [.fetch u, .removeDir out], false⟩) ∧
    (pinOk s256 sd.sha256 → pinOk s512 sd.sha512 →
      entryLock (.url u s256 s512 subdir) at_ out none w =
        ⟨.ok (⟨some (.url u subdir), d, keyset ds⟩, ds), [.fetch u], true⟩) ∧
    (∀ g x, (LError.sha256Mismatch u g x).message =
      "sha256 hash mismatch for `" ++ u.render ++ "`\ngot: " ++ hexEncode g
        ++ "\nexpected: " ++ hexEncode x) ∧
    (∀ g x, (LError.sha512Mismatch u g x).message =
      "sha512 hash mismatch for `" ++ u.render ++ "`\ngot: " ++ hexEncode g
        ++ "\nexpected: " ++ hexEncode x) := by
  have hbase : entryLock (.url u s256 s512 subdir) at_ out none w =
      fetchPhase u s256 s512 subdir out w [] w.outExists := by
    simp [entryLock, rebuild, urlRebuild, hcache]
  have hres256 : ∀ p, s256 = some p → p ≠ sd.sha256 →
      entryLock (.url u s256 s512 subdir) at_ out none w =
        ⟨.err (.sha256Mismatch u sd.sha256 p), [.fetch u, .removeDir out], false⟩ := by
    intro p hp hne
    subst hp
    have hbeq : (sd.sha256 == p) = false := by
      simp only [beq_eq_false_iff_ne, ne_eq]
      exact fun hq => hne hq.symm
    rw [hbase]
    simp [fetchPhase, if_pos hscheme, hfetch, pinCheck, hbeq]
  have hres512 : ∀ q, pinOk s256 sd.sha256 → s512 = some q → q ≠ sd.sha512 →
      entryLock (.url u s256 s512 subdir) at_ out none w =
        ⟨.err (.sha512Mismatch u sd.sha512 q), [.fetch u, .removeDir out], false⟩ := by
    intro q h256 hq hne
    subst hq
    have hbeq : (sd.sha512 == q) = false := by
      simp only [beq_eq_false_iff_ne, ne_eq]
      exact fun hx => hne hx.symm
    rw [hbase]
    cases hs : s256 with
    | none => simp [fetchPhase, if_pos hscheme, hfetch, pinCheck, hbeq]
    | some p =>
      have hp : p = sd.sha256 := h256 p hs
      have hbeq2 : (sd.sha256 == p) = true := by simp [hp]
      simp [fetchPhase, if_pos hscheme, hfetch, pinCheck, hbeq, hbeq2]
  have hresOk : pinOk s256 sd.sha256 → pinOk s512 sd.sha512 →
      entryLock (.url u s256 s512 subdir) at_ out none w =
        ⟨.ok (⟨some (.url u subdir), d, keyset ds⟩, ds), [.fetch u], true⟩ := by
    intro h256 h512
    rw [hbase]
    cases hs : s256 with
    | none =>
      cases ht : s512 with
      | none => simp [fetchPhase, if_pos hscheme, hfetch, pinCheck, finishUrl, hld, hdout]
      | some q =>
        have hq : (sd.sha512 == q) = true := by simp [h512 q ht]
        simp [fetchPhase, if_pos hscheme, hfetch, pinCheck, hq, finishUrl, hld, hdout]
    | some p =>
      have hp : (sd.sha256 == p) = true := by simp [h256 p hs]
      cases ht : s512 with
      | none => simp [fetchPhase, if_pos hscheme, hfetch, pinCheck, hp, finishUrl, hld, hdout]
      | some q =>
        have hq : (sd.sha512 == q) = true := by simp [h512 q ht]
        simp [fetchPhase, if_pos hscheme, hfetch, pinCheck, hp, hq, finishUrl, hld, hdout]
  refine ⟨?_, hres256, hres512, hresOk, fun g x => rfl, fun g x => rfl⟩
  constructor
  · rintro ⟨r, hr⟩
    have h256 : pinOk s256 sd.sha256 := by
      intro p hp
      by_contra hne
      rw [hres256 p hp hne] at hr
      simp at hr
    have h512 : pinOk s512 sd.sha512 := by
      intro q hq
      by_contra hne
      rw [hres512 q h256 hq hne] at hr
      simp at hr
    exact ⟨h256, h512⟩
  · rintro ⟨h256, h512⟩
    exact ⟨(⟨some (.url u subdir), d, keyset ds⟩, ds), by rw [hresOk h256 h512]⟩

/-- Witness for C2: a concrete https fetch with a matching sha256 pin is
accepted with the computed directory digest; flipping the pin is rejected
with the sha256 mismatch error and the output directory removed. -/
theorem wd_c2_pin_enforcement_witness :
    ((⟨"https", "example.com/a.tar.gz"⟩ : UrlV).scheme = "http" ∨
      (⟨"https", "example.com/a.tar.gz"⟩ : UrlV).scheme = "https") ∧
    entryLock (.url ⟨"https", "example.com/a.tar.gz"⟩ (some 5) none "wit") none
      ["deps", "a"] none
      ⟨fun _ => .err .notFound, false, none,
        .ok ⟨5, 9⟩ (.ok ⟨[], fun p => if p = ["deps", "a"] then .ok ⟨7, 8⟩ else .err .notFound⟩),
        .err .other⟩ =
      ⟨.ok (⟨some (.url ⟨"https", "example.com/a.tar.gz"⟩ "wit"), ⟨7, 8⟩, []⟩, []),
        [.fetch ⟨"https", "example.com/a.tar.gz"⟩], true⟩ ∧
    entryLock (.url ⟨"https", "example.com/a.tar.gz"⟩ (some 6) none "wit") none
      ["deps", "a"] none
      ⟨fun _ => .err .notFound, false, none,
        .ok ⟨5, 9⟩ (.ok ⟨[], fun p => if p = ["deps", "a"] then .ok ⟨7, 8⟩ else .err .notFound⟩),
        .err .other⟩ =
      ⟨.err (.sha256Mismatch ⟨"https", "example.com/a.tar.gz"⟩ 5 6),
        [.fetch ⟨"https", "example.com/a.tar.gz"⟩,
          .removeDir ["deps", "a"]], false⟩ := by
  refine ⟨Or.inr rfl, ?_, ?_⟩
  · have h := wd_c2_pin_enforcement ⟨"https", "example.com/a.tar.gz"⟩ (some 5) none "wit"
      none ["deps", "a"]
      ⟨fun _ => .err .notFound, false, none,
        .ok ⟨5, 9⟩ (.ok ⟨[], fun p => if p = ["deps", "a"] then .ok ⟨7, 8⟩ else .err .notFound⟩),
        .err .other⟩
      ⟨5, 9⟩ ⟨[], fun p => if p = ["deps", "a"] then .ok ⟨7, 8⟩ else .err .notFound⟩ [] ⟨7, 8⟩
      (Or.inr rfl) rfl rfl rfl (by decide)
    exact h.2.2.2.1 (fun p hp => by cases hp; rfl) (fun q hq => by cases hq)
  · have h := wd_c2_pin_enforcement ⟨"https", "example.com/a.tar.gz"⟩ (some 6) none "wit"
      none ["deps", "a"]
      ⟨fun _ => .err .notFound, false, none,
        .ok ⟨5, 9⟩ (.ok ⟨[], fun p => if p = ["deps", "a"] then .ok ⟨7, 8⟩ else .err .notFound⟩),
        .err .other⟩
      ⟨5, 9⟩ ⟨[], fun p => if p = ["deps", "a"] then .ok ⟨7, 8⟩ else .err .notFound⟩ [] ⟨7, 8⟩
      (Or.inr rfl) rfl rfl rfl (by decide)
    exact h.2.1 6 rfl (by decide)

theorem foldTrans_append (l1 l2 : List (Identifier × LockEntry)) :
    ∀ acc acc2, foldTrans acc l1 = .ok acc2 → foldTrans acc (l1 ++ l2) = foldTrans acc2 l2 := by
  induction l1 with
  | nil =>
    intro acc acc2 h
    simp only [foldTrans] at h
    cases h
    simp
  | cons kv rest ih =>
    intro acc acc2 h
    simp only [foldTrans, List.cons_append] at h ⊢
    cases hl : lockLookup acc kv.1 with
    | some e2 =>
      rw [hl] at h
      dsimp only at h ⊢
      by_cases hd : e2.digest = kv.2.digest
      · rw [if_pos hd] at h ⊢
        exact ih acc acc2 h
      · rw [if_neg hd] at h
        cases h
    | none =>
      rw [hl] at h
      dsimp only at h ⊢
      exact ih _ acc2 h

/-- C3: Transitive conflict resolution.  When a transitive result `(id, e)`
is folded into an accumulating lock that already has a transitive entry `e2`
for `id`, the fold requires digest equality: on equality the accumulator
(and hence the existing entry) is kept unchanged, on mismatch the fold — and
with it the whole `Manifest::lock` run — fails with the conflict error whose
message instructs the user to pin `id` directly in the manifest. -/
theorem wd_c3_transitive_conflict (acc : Lock) (rest : List (Identifier × LockEntry))
    (id : Identifier) (e e2 : LockEntry)
    (hl : lockLookup acc id = some e2) (hsrc : e2.source = none) :
    (foldTrans acc ((id, e) :: rest) =
      if e2.digest = e.digest then foldTrans acc rest else .err (.transitiveConflict id)) ∧
    (∀ tds0 acc0, foldTrans acc0 tds0 = .ok acc → e2.digest ≠ e.digest →
      foldTrans acc0 (tds0 ++ (id, e) :: rest) = .err (.transitiveConflict id)) ∧
    (∀ at2 depsDir old w hid he rest2 effs r,
      (entryLock he at2 (outPathOf depsDir hid)
        ((old.map fun l => lockLookup l hid).join) (w hid)).result = .ok r →
      foldResult acc hid r.1 r.2 = .err (.transitiveConflict id) →
      manifestLockGo at2 depsDir old w ((hid, he) :: rest2) acc effs =
        (.err (.transitiveConflict id),
          effs ++ (entryLock he at2 (outPathOf depsDir hid)
            ((old.map fun l => lockLookup l hid).join) (w hid)).effects)) ∧
    (LError.transitiveConflict id).message =
      "transitive dependency conflict for `" ++ id ++ "`, add `" ++ id
        ++ "` to dependency manifest to resolve it" := by
  refine ⟨?_, ?_, ?_, rfl⟩
  · simp only [foldTrans, hl]
  · intro tds0 acc0 h hne
    rw [foldTrans_append tds0 ((id, e) :: rest) acc0 acc h]
    simp only [foldTrans, hl, if_neg hne]
  · intro at2 depsDir old w hid he rest2 effs r hel hfr
    simp only [manifestLockGo, hel, hfr]

/-- Witness for C3: with an accumulated transitive entry for `t` of digest
(1,1), folding another `t` of digest (2,2) fails with the conflict error,
and folding an equal-digest `t` keeps the accumulator unchanged. -/
theorem wd_c3_transitive_conflict_witness :
    lockLookup [(("t" : Identifier), (⟨none, ⟨1, 1⟩, []⟩ : LockEntry))] "t" =
      some ⟨none, ⟨1, 1⟩, []⟩ ∧
    foldTrans [(("t" : Identifier), (⟨none, ⟨1, 1⟩, []⟩ : LockEntry))]
      [("t", ⟨none, ⟨2, 2⟩, []⟩)] = .err (.transitiveConflict "t") ∧
    foldTrans [(("t" : Identifier), (⟨none, ⟨1, 1⟩, []⟩ : LockEntry))]
      [("t", ⟨none, ⟨1, 1⟩, []⟩)] =
      .ok [(("t" : Identifier), (⟨none, ⟨1, 1⟩, []⟩ : LockEntry))] := by
  refine ⟨by decide, ?_, ?_⟩
  · have h := (wd_c3_transitive_conflict [("t", ⟨none, ⟨1, 1⟩, []⟩)] [] "t"
      ⟨none, ⟨2, 2⟩, []⟩ ⟨none, ⟨1, 1⟩, []⟩ (by decide) rfl).1
    rw [h]
    decide
  · have h := (wd_c3_transitive_conflict [("t", ⟨none, ⟨1, 1⟩, []⟩)] [] "t"
      ⟨none, ⟨1, 1⟩, []⟩ ⟨none, ⟨1, 1⟩, []⟩ (by decide) rfl).1
    rw [h]
    decide

theorem finishUrl_shape (u : UrlV) (subdir : String) (out : DirPath) (up : Unpacked)
    (effs : List Effect) (r : LockEntry × List (Identifier × LockEntry))
    (h : (finishUrl u subdir out up effs).result = .ok r) :
    ∀ kv ∈ r.2, kv.2.source = none ∧ kv.2.deps = [] := by
  unfold finishUrl at h
  cases hld : lockDeps up.digestAt up.deps with
  | err e => rw [hld] at h; simp at h
  | ok ds =>
    rw [hld] at h
    cases hdo : up.digestAt out with
    | err e => rw [hdo] at h; simp at h
    | ok d =>
      rw [hdo] at h
      dsimp only at h
      cases h
      exact lockDeps_shape up.digestAt up.deps ds hld

theorem fetchPhase_shape (u : UrlV) (s256 s512 : Option Nat) (subdir : String)
    (out : DirPath) (w : EntryWorld) (effs : List Effect) (outEx : Bool)
    (r : LockEntry × List (Identifier × LockEntry))
    (h : (fetchPhase u s256 s512 subdir out w effs outEx).result = .ok r) :
    ∀ kv ∈ r.2, kv.2.source = none ∧ kv.2.deps = [] := by
  unfold fetchPhase at h
  by_cases hs : u.scheme = "http" ∨ u.scheme = "https"
  · rw [if_pos hs] at h
    cases hf : w.fetch with
    | err => rw [hf] at h; simp at h
    | ok sd unp =>
      rw [hf] at h
      cases unp with
      | err e => simp at h
      | ok up =>
        dsimp only at h
        cases pc : pinCheck u sd s256 s512 with
        | some err => rw [pc] at h; simp at h
        | none =>
          rw [pc] at h
          exact finishUrl_shape u subdir out up (effs ++ [.fetch u]) r h
  · rw [if_neg hs] at h
    by_cases hf : u.scheme = "file"
    · rw [if_pos hf] at h; simp at h
    · rw [if_neg hf] at h; simp at h

theorem urlRebuild_shape (u : UrlV) (s256 s512 : Option Nat) (subdir : String)
    (out : DirPath) (w : EntryWorld) (r : LockEntry × List (Identifier × LockEntry))
    (h : (urlRebuild u s256 s512 subdir out w).result = .ok r) :
    ∀ kv ∈ r.2, kv.2.source = none ∧ kv.2.deps = [] := by
  unfold urlRebuild at h
  cases hc : w.cache with
  | none =>
    rw [hc] at h
    exact fetchPhase_shape u s256 s512 subdir out w [] w.outExists r h
  | some cg =>
    rw [hc] at h
    cases cg with
    | errGet => exact fetchPhase_shape u s256 s512 subdir out w [] w.outExists r h
    | miss => exact fetchPhase_shape u s256 s512 subdir out w [] w.outExists r h
    | hit sd unp =>
      cases unp with
      | err e => exact fetchPhase_shape u s256 s512 subdir out w _ true r h
      | ok up =>
        dsimp only at h
        by_cases hm : source_matches sd s256 s512
        · rw [if_pos hm] at h
          exact finishUrl_shape u subdir out up _ r h
        · rw [if_neg hm] at h
          exact fetchPhase_shape u s256 s512 subdir out w _ false r h

theorem pathRebuild_shape (p : String) (at_ : Option String) (out : DirPath)
    (w : EntryWorld) (r : LockEntry × List (Identifier × LockEntry))
    (h : (pathRebuild p at_ out w).result = .ok r) :
    ∀ kv ∈ r.2, kv.2.source = none ∧ kv.2.deps = [] := by
  unfold pathRebuild at h
  cases hc : w.pathCopy with
  | err e => rw [hc] at h; simp at h
  | ok up =>
    rw [hc] at h
    dsimp only at h
    cases hld : lockDeps up.digestAt up.deps with
    | err e => rw [hld] at h; simp at h
    | ok ds =>
      rw [hld] at h
      cases hdo : up.digestAt out with
      | err e => rw [hdo] at h; simp at h
      | ok d =>
        rw [hdo] at h
        dsimp only at h
        cases h
        exact lockDeps_shape up.digestAt up.deps ds hld

theorem rebuild_shape (entry : MEntry) (at_ : Option String) (out : DirPath)
    (w : EntryWorld) (r : LockEntry × List (Identifier × LockEntry))
    (h : (rebuild entry at_ out w).result = .ok r) :
    ∀ kv ∈ r.2, kv.2.source = none ∧ kv.2.deps = [] := by
  cases entry with
  | path p => exact pathRebuild_shape p at_ out w r h
  | url u s256 s512 subdir => exact urlRebuild_shape u s256 s512 subdir out w r h

theorem fastCheck_shape (entry : MEntry) (at_ : Option String) (out : DirPath)
    (le : LockEntry) (w : EntryWorld) (depsRes : Res (List (Identifier × LockEntry)))
    (r : LockEntry × List (Identifier × LockEntry))
    (hds : ∀ ds, depsRes = .ok ds → ∀ kv ∈ ds, kv.2.source = none ∧ kv.2.deps = [])
    (h : (fastCheck entry at_ out le w depsRes).result = .ok r) :
    ∀ kv ∈ r.2, kv.2.source = none ∧ kv.2.deps = [] := by
  unfold fastCheck at h
  cases hpd : w.preDigestAt out with
  | err e =>
    rw [hpd] at h
    exact rebuild_shape entry at_ out w r h
  | ok d =>
    rw [hpd] at h
    cases hls : le.source with
    | none =>
      rw [hls] at h
      exact rebuild_shape entry at_ out w r h
    | some src =>
      rw [hls] at h
      cases hdr : depsRes with
      | err e =>
        rw [hdr] at h
        exact rebuild_shape entry at_ out w r h
      | ok ds =>
        rw [hdr] at h
        dsimp only at h
        by_cases hd : d = le.digest
        · rw [if_pos hd] at h
          cases entry with
          | url u s256 s512 subdir =>
            cases src with
            | url lu lsubdir =>
              dsimp only at h
              by_cases he : u = lu ∧ subdir = lsubdir
              · rw [if_pos he] at h
                cases h
                exact hds ds hdr
              · rw [if_neg he] at h
                exact rebuild_shape (.url u s256 s512 subdir) at_ out w r h
            | path lp =>
              exact rebuild_shape (.url u s256 s512 subdir) at_ out w r h
          | path p =>
            cases src with
            | url lu lsubdir =>
              exact rebuild_shape (.path p) at_ out w r h
            | path lp =>
              dsimp only at h
              by_cases he : p = lp
              · rw [if_pos he] at h
                cases h
                exact hds ds hdr
              · rw [if_neg he] at h
                exact rebuild_shape (.path p) at_ out w r h
        · rw [if_neg hd] at h
          exact rebuild_shape entry at_ out w r h

/-- C10: Every lock entry the reconciler creates for a transitive dependency
— in fast-path reuse and in every rebuild — has `source = none` and an empty
transitive set, since every transitive map is produced by `lock_deps`, which
builds entries through `Entry::from_transitive_path`. -/
theorem wd_c10_transitive_shape (entry : MEntry) (at_ : Option String) (out : DirPath)
    (lockE : Option LockEntry) (w : EntryWorld) (r : LockEntry × List (Identifier × LockEntry))
    (h : (entryLock entry at_ out lockE w).result = .ok r) :
    ∀ kv ∈ r.2, kv.2.source = none ∧ kv.2.deps = [] := by
  cases lockE with
  | none => exact rebuild_shape entry at_ out w r h
  | some le =>
    simp only [entryLock] at h
    by_cases hle : le.deps.isEmpty
    · rw [if_pos hle] at h
      refine fastCheck_shape entry at_ out le w (.ok []) r ?_ h
      intro ds hds0 kv hkv
      cases hds0
      cases hkv
    · rw [if_neg hle] at h
      cases out with
      | nil => simp at h
      | cons o os =>
        refine fastCheck_shape entry at_ (o :: os) le w _ r ?_ h
        intro ds hds0
        exact lockDeps_shape _ _ _ hds0

/-- Witness for C10 at a concrete cache-accepted URL entry whose archive
carried one transitive dependency. -/
theorem wd_c10_transitive_shape_witness :
    (entryLock (.url ⟨"https", "h/x"⟩ none none "wit") none ["deps", "a"] none
      ⟨fun _ => .err .notFound, false,
        some (.hit ⟨5, 9⟩ (.ok ⟨[("t", ["deps", "t"])],
          fun p => if p = ["deps", "a"] then .ok ⟨7, 8⟩
            else if p = ["deps", "t"] then .ok ⟨3, 4⟩ else .err .notFound⟩)),
        .err, .err .other⟩).result =
      .ok (⟨some (.url ⟨"https", "h/x"⟩ "wit"), ⟨7, 8⟩, ["t"]⟩,
        [("t", ⟨none, ⟨3, 4⟩, []⟩)]) ∧
    ∀ kv ∈ [(("t" : Identifier), (⟨none, (⟨3, 4⟩ : Digest), ([] : List Identifier)⟩ : LockEntry))],
      kv.2.source = none ∧ kv.2.deps = [] := by
  constructor
  · decide
  · exact wd_c10_transitive_shape (.url ⟨"https", "h/x"⟩ none none "wit") none
      ["deps", "a"] none
      ⟨fun _ => .err .notFound, false,
        some (.hit ⟨5, 9⟩ (.ok ⟨[("t", ["deps", "t"])],
          fun p => if p = ["deps", "a"] then .ok ⟨7, 8⟩
            else if p = ["deps", "t"] then .ok ⟨3, 4⟩ else .err .notFound⟩)),
        .err, .err .other⟩
      (⟨some (.url ⟨"https", "h/x"⟩ "wit"), ⟨7, 8⟩, ["t"]⟩,
        [("t", ⟨none, ⟨3, 4⟩, []⟩)])
      (by decide)

/-- Counterexample to C6: the fast path does not compare the recomputed
sibling digest with the prior lock's transitive entry.  Here the prior
transitive entry for `t` has digest (2,2) but the on-disk sibling digests to
(9,9); the claim demands a fall-through to a full rebuild (which would fetch),
yet the run performs no effect at all and reuses the entry, recording the
recomputed digest (9,9). -/
theorem wd_c6_fastpath_sibling_cex :
    manifestLock [(("a" : Identifier), MEntry.url ⟨"https", "h/x"⟩ none none "wit")]
      none ["deps"]
      (some [("a", ⟨some (.url ⟨"https", "h/x"⟩ "wit"), ⟨1, 1⟩, ["t"]⟩),
             ("t", ⟨none, ⟨2, 2⟩, []⟩)])
      (fun _ => ⟨fun p =>
          if p = ["deps", "a"] then .ok ⟨1, 1⟩
          else if p = ["deps", "t"] then .ok ⟨9, 9⟩
          else .err .notFound,
        true, none, .err, .err .other⟩) =
      (.ok [("a", ⟨some (.url ⟨"https", "h/x"⟩ "wit"), ⟨1, 1⟩, ["t"]⟩),
            ("t", ⟨none, ⟨9, 9⟩, []⟩)], []) ∧
    (⟨9, 9⟩ : Digest) ≠ ⟨2, 2⟩ := by
  exact ⟨by decide, by decide⟩

/-- C6 as amended: with a previous lock entry whose source and output digest
match, the fast path falls through to a full rebuild only when recomputing a
sibling digest fails (for example because the sibling directory is missing);
when all sibling digests compute, the entry is reused with the recomputed
digests — even if they differ from the prior transitive entries — with no
fetch or copy. -/
theorem wd_c6_fastpath_sibling_amended (e : MEntry) (at_ : Option String) (out : DirPath)
    (w : EntryWorld) (dig : Digest) (ldeps : List Identifier) (g : Identifier → Digest)
    (hout : out ≠ [])
    (hdig : w.preDigestAt out = .ok dig)
    (hsort : sortDedup ldeps = ldeps) :
    ((∀ tid ∈ ldeps, w.preDigestAt (out.dropLast ++ [sanitizeId tid]) = .ok (g tid)) →
      entryLock e at_ out (some ⟨some e.sourceOf, dig, ldeps⟩) w =
        ⟨.ok (⟨some e.sourceOf, dig, ldeps⟩, ldeps.map fun tid => (tid, ⟨none, g tid, []⟩)),
          [], w.outExists⟩) ∧
    (ldeps ≠ [] → ∀ er, lockDeps w.preDigestAt
        (ldeps.map fun tid => (tid, out.dropLast ++ [sanitizeId tid])) = .err er →
      entryLock e at_ out (some ⟨some e.sourceOf, dig, ldeps⟩) w = rebuild e at_ out w) := by
  constructor
  · intro htids
    exact entryLock_fast e at_ out w dig ldeps g hout hdig hsort htids
  · intro hne er hld
    rcases out with _ | ⟨o, os⟩
    · exact absurd rfl hout
    have hempty : ldeps.isEmpty = false := by
      cases ldeps with
      | nil => exact absurd rfl hne
      | cons t ts => rfl
    simp only [entryLock, hempty, Bool.false_eq_true, if_false]
    simp only [fastCheck, hld, hdig]

/-- Witness for the amended C6: a concrete entry whose sibling digest
computation fails falls through to a rebuild (here an https fetch), while
the counterpart with computable sibling digests is reused. -/
theorem wd_c6_fastpath_sibling_amended_witness :
    (["deps", "a"] : DirPath) ≠ [] ∧
    entryLock (.url ⟨"https", "h/x"⟩ none none "wit") none ["deps", "a"]
      (some ⟨some (.url ⟨"https", "h/x"⟩ "wit"), ⟨1, 1⟩, ["t"]⟩)
      ⟨fun p => if p = ["deps", "a"] then .ok ⟨1, 1⟩ else .err .notFound,
        true, none, .ok ⟨5, 9⟩ (.ok ⟨[], fun p =>
          if p = ["deps", "a"] then .ok ⟨7, 8⟩ else .err .notFound⟩), .err .other⟩ =
      rebuild (.url ⟨"https", "h/x"⟩ none none "wit") none ["deps", "a"]
        ⟨fun p => if p = ["deps", "a"] then .ok ⟨1, 1⟩ else .err .notFound,
          true, none, .ok ⟨5, 9⟩ (.ok ⟨[], fun p =>
            if p = ["deps", "a"] then .ok ⟨7, 8⟩ else .err .notFound⟩), .err .other⟩ := by
  refine ⟨by decide, ?_⟩
  have h := (wd_c6_fastpath_sibling_amended
    (.url ⟨"https", "h/x"⟩ none none "wit") none ["deps", "a"]
    ⟨fun p => if p = ["deps", "a"] then .ok ⟨1, 1⟩ else .err .notFound,
      true, none, .ok ⟨5, 9⟩ (.ok ⟨[], fun p =>
        if p = ["deps", "a"] then .ok ⟨7, 8⟩ else .err .notFound⟩), .err .other⟩
    ⟨1, 1⟩ ["t"] (fun _ => ⟨0, 0⟩) (by decide) (by decide) (by decide)).2
  exact h (by decide) (.io .notFound) (by decide)

/-- Counterexample to C7: for the identifier `a:b`, `Manifest::lock` passes
the per-entry output directory `deps/a:b` — the identifier verbatim, not
sanitized — to the rebuild, as the recorded copy effect shows, while the
claim demands `deps/a_b`. -/
theorem wd_c7_sanitize_cex :
    manifestLock [(("a:b" : Identifier), MEntry.path "p")] none ["deps"] none
      (fun _ => ⟨fun _ => .err .notFound, false, none, .err,
        .ok ⟨[], fun q => if q = ["deps", "a:b"] then .ok ⟨1, 1⟩ else .err .notFound⟩⟩) =
      (.ok [("a:b", ⟨some (.path "p"), ⟨1, 1⟩, []⟩)],
        [.copyDir "p" ["deps", "a:b"]]) ∧
    (["deps", "a:b"] : DirPath) ≠ ["deps", sanitizeId "a:b"] := by
  exact ⟨by decide, by decide⟩

/-- C7 as amended: the per-entry output directory is `deps/<id>` with the
identifier verbatim (no `:` substitution), and the key of the corresponding
lock entry also retains the identifier verbatim; the `:` to `_` substitution
is applied only when the fast path derives the sibling path for a previously
locked transitive dependency, whose recomputed digest is read at
`<parent>/<sanitized id>`. -/
theorem wd_c7_sanitize_amended (id : Identifier) (p : String) (at_ : Option String)
    (depsDir : DirPath) (w : Identifier → EntryWorld) (up : Unpacked) (d : Digest)
    (hpc : (w id).pathCopy = .ok up)
    (hdeps : up.deps = [])
    (hdout : up.digestAt (depsDir ++ [id]) = .ok d) :
    manifestLock [(id, .path p)] at_ depsDir none w =
      (.ok [(id, ⟨some (.path p), d, []⟩)],
        [.copyDir (resolveSrc at_ p) (depsDir ++ [id])]) ∧
    (∀ (e : MEntry) (w2 : EntryWorld) (dig dt : Digest) (tid : Identifier),
      depsDir ≠ [] →
      w2.preDigestAt (depsDir ++ [id]) = .ok dig →
      sortDedup [tid] = [tid] →
      w2.preDigestAt (depsDir ++ [sanitizeId tid]) = .ok dt →
      entryLock e at_ (depsDir ++ [id]) (some ⟨some e.sourceOf, dig, [tid]⟩) w2 =
        ⟨.ok (⟨some e.sourceOf, dig, [tid]⟩, [(tid, ⟨none, dt, []⟩)]), [], w2.outExists⟩) := by
  constructor
  · have hel : entryLock (.path p) at_ (depsDir ++ [id]) none (w id) =
        ⟨.ok (⟨some (.path p), d, []⟩, []),
          [.copyDir (resolveSrc at_ p) (depsDir ++ [id])], true⟩ := by
      simp only [entryLock, rebuild, pathRebuild, hpc]
      rw [hdeps]
      simp only [lockDeps, hdout]
      simp [keyset, idsOf, sortDedup]
    have hjn : ((none : Option Lock).map fun l => lockLookup l id).join = none := rfl
    simp only [manifestLock, manifestLockGo, outPathOf, foldResult, insertDirect,
      lockLookup]
    rw [hjn, hel]
    simp [foldTrans]
  · intro e w2 dig dt tid hdd hdig hsort hsib
    have htids : ∀ t2 ∈ [tid],
        w2.preDigestAt ((depsDir ++ [id]).dropLast ++ [sanitizeId t2]) = .ok dt := by
      intro t2 ht2
      rw [List.mem_singleton] at ht2
      subst ht2
      rw [dropLast_append_single]
      exact hsib
    have h := entryLock_fast e at_ (depsDir ++ [id]) w2 dig [tid] (fun _ => dt)
      (append_single_ne_nil depsDir id) hdig hsort htids
    simpa using h

/-- Witness for the amended C7: identifier `a:b` is materialized at the
verbatim path `deps/a:b` and keyed verbatim in the lock, while the fast-path
sibling digest for the transitive identifier `x:y` is read at the sanitized
path `deps/x_y`. -/
theorem wd_c7_sanitize_amended_witness :
    sanitizeId "x:y" = "x_y" ∧
    manifestLock [(("a:b" : Identifier), MEntry.path "p")] none ["deps"] none
      (fun _ => ⟨fun _ => .err .notFound, false, none, .err,
        .ok ⟨[], fun q => if q = ["deps", "a:b"] then .ok ⟨3, 3⟩ else .err .notFound⟩⟩) =
      (.ok [("a:b", ⟨some (.path "p"), ⟨3, 3⟩, []⟩)],
        [.copyDir "p" ["deps", "a:b"]]) ∧
    entryLock (.path "q") none (["deps"] ++ ["a:b"])
      (some ⟨some (.path "q"), ⟨1, 1⟩, ["x:y"]⟩)
      ⟨fun q => if q = ["deps", "a:b"] then .ok ⟨1, 1⟩
        else if q = ["deps", "x_y"] then .ok ⟨2, 2⟩ else .err .notFound,
        true, none, .err, .err .other⟩ =
      ⟨.ok (⟨some (.path "q"), ⟨1, 1⟩, ["x:y"]⟩, [("x:y", ⟨none, ⟨2, 2⟩, []⟩)]),
        [], true⟩ := by
  refine ⟨by decide, ?_, ?_⟩
  · exact (wd_c7_sanitize_amended "a:b" "p" none ["deps"]
      (fun _ => ⟨fun _ => .err .notFound, false, none, .err,
        .ok ⟨[], fun q => if q = ["deps", "a:b"] then .ok ⟨3, 3⟩ else .err .notFound⟩⟩)
      ⟨[], fun q => if q = ["deps", "a:b"] then .ok ⟨3, 3⟩ else .err .notFound⟩ ⟨3, 3⟩
      rfl rfl (by decide)).1
  · exact (wd_c7_sanitize_amended "a:b" "p" none ["deps"]
      (fun _ => ⟨fun _ => .err .notFound, false, none, .err,
        .ok ⟨[], fun q => if q = ["deps", "a:b"] then .ok ⟨3, 3⟩ else .err .notFound⟩⟩)
      ⟨[], fun q => if q = ["deps", "a:b"] then .ok ⟨3, 3⟩ else .err .notFound⟩ ⟨3, 3⟩
      rfl rfl (by decide)).2 (.path "q")
      ⟨fun q => if q = ["deps", "a:b"] then .ok ⟨1, 1⟩
        else if q = ["deps", "x_y"] then .ok ⟨2, 2⟩ else .err .notFound,
        true, none, .err, .err .other⟩
      ⟨1, 1⟩ ⟨2, 2⟩ "x:y" (by decide) (by decide) (by decide) (by decide)

/-- Counterexample to C8: on a cache hit whose unpack errors, nothing is
removed — the effect trace of the (successful) entry contains the cache
unpack and the fall-through fetch but no `removeDir`, although the claim
demands that the output directory and partial siblings be removed. -/
theorem wd_c8_cache_recovery_cex :
    entryLock (.url ⟨"https", "h/x"⟩ none none "wit") none ["deps", "a"] none
      ⟨fun _ => .err .notFound, true,
        some (.hit ⟨5, 9⟩ (.err .other)),
        .ok ⟨5, 9⟩ (.ok ⟨[], fun p =>
          if p = ["deps", "a"] then .ok ⟨7, 8⟩ else .err .notFound⟩),
        .err .other⟩ =
      ⟨.ok (⟨some (.url ⟨"https", "h/x"⟩ "wit"), ⟨7, 8⟩, []⟩, []),
        [.cacheUnpack ⟨"https", "h/x"⟩ ["deps", "a"], .fetch ⟨"https", "h/x"⟩], true⟩ ∧
    Effect.removeDir ["deps", "a"] ∉
      [Effect.cacheUnpack ⟨"https", "h/x"⟩ ["deps", "a"], Effect.fetch ⟨"https", "h/x"⟩] := by
  exact ⟨by decide, by decide⟩

/-- C8 as amended: a cache hit is accepted iff unpacking succeeds and the
stream digest satisfies every supplied pin (absent pins are satisfied); on a
hash mismatch the output directory and every returned transitive sibling are
removed and processing falls through to the network fetch; on a cache lookup
error, a miss, or an unpack error, processing falls through with no removal;
a cache failure is never by itself fatal for the entry. -/
theorem wd_c8_cache_recovery_amended (u : UrlV) (s256 s512 : Option Nat) (subdir : String)
    (at_ : Option String) (out : DirPath) (w : EntryWorld) :
    (∀ sd, source_matches sd s256 s512 = true ↔
      pinOk s256 sd.sha256 ∧ pinOk s512 sd.sha512) ∧
    (w.cache = none →
      entryLock (.url u s256 s512 subdir) at_ out none w =
        fetchPhase u s256 s512 subdir out w [] w.outExists) ∧
    (w.cache = some .errGet →
      entryLock (.url u s256 s512 subdir) at_ out none w =
        fetchPhase u s256 s512 subdir out w [] w.outExists) ∧
    (w.cache = some .miss →
      entryLock (.url u s256 s512 subdir) at_ out none w =
        fetchPhase u s256 s512 subdir out w [] w.outExists) ∧
    (∀ sd e, w.cache = some (.hit sd (.err e)) →
      entryLock (.url u s256 s512 subdir) at_ out none w =
        fetchPhase u s256 s512 subdir out w [.cacheUnpack u out] true) ∧
    (∀ sd up, w.cache = some (.hit sd (.ok up)) → source_matches sd s256 s512 = false →
      entryLock (.url u s256 s512 subdir) at_ out none w =
        fetchPhase u s256 s512 subdir out w
          ([.cacheUnpack u out, .removeDir out] ++ up.deps.map fun kv => .removeDir kv.2)
          false) ∧
    (∀ sd up, w.cache = some (.hit sd (.ok up)) → source_matches sd s256 s512 = true →
      entryLock (.url u s256 s512 subdir) at_ out none w =
        finishUrl u subdir out up [.cacheUnpack u out]) := by
  refine ⟨?_, ?_, ?_, ?_, ?_, ?_, ?_⟩
  · intro sd
    constructor
    · intro h
      simp only [source_matches, Bool.and_eq_true] at h
      constructor
      · intro p hp
        rw [hp] at h
        have h1 : (p == sd.sha256) = true := h.1
        exact (beq_iff_eq ..).mp h1
      · intro q hq
        rw [hq] at h
        have h2 : (q == sd.sha512) = true := h.2
        exact (beq_iff_eq ..).mp h2
    · rintro ⟨h256, h512⟩
      simp only [source_matches, Bool.and_eq_true]
      constructor
      · cases hs : s256 with
        | none => rfl
        | some p => simp [(h256 p hs)]
      · cases ht : s512 with
        | none => rfl
        | some q => simp [(h512 q ht)]
  · intro hc
    simp [entryLock, rebuild, urlRebuild, hc]
  · intro hc
    simp [entryLock, rebuild, urlRebuild, hc]
  · intro hc
    simp [entryLock, rebuild, urlRebuild, hc]
  · intro sd e hc
    simp [entryLock, rebuild, urlRebuild, hc]
  · intro sd up hc hm
    simp [entryLock, rebuild, urlRebuild, hc, hm]
  · intro sd up hc hm
    simp [entryLock, rebuild, urlRebuild, hc, hm]

/-- Witness for the amended C8: a concrete cache hit with a sha256 pin
mismatch removes the output directory and the partially written sibling and
falls through to the fetch phase. -/
theorem wd_c8_cache_recovery_amended_witness :
    (⟨fun _ => .err .notFound, true,
      some (.hit ⟨5, 9⟩ (.ok ⟨[("t", ["deps", "t"])], fun _ => .err .notFound⟩)),
      .err, .err .other⟩ : EntryWorld).cache =
      some (.hit ⟨5, 9⟩ (.ok ⟨[("t", ["deps", "t"])], fun _ => .err .notFound⟩)) ∧
    entryLock (.url ⟨"https", "h/x"⟩ (some 6) none "wit") none ["deps", "a"] none
      ⟨fun _ => .err .notFound, true,
        some (.hit ⟨5, 9⟩ (.ok ⟨[("t", ["deps", "t"])], fun _ => .err .notFound⟩)),
        .err, .err .other⟩ =
      fetchPhase ⟨"https", "h/x"⟩ (some 6) none "wit" ["deps", "a"]
        ⟨fun _ => .err .notFound, true,
          some (.hit ⟨5, 9⟩ (.ok ⟨[("t", ["deps", "t"])], fun _ => .err .notFound⟩)),
          .err, .err .other⟩
        ([.cacheUnpack ⟨"https", "h/x"⟩ ["deps", "a"], .removeDir ["deps", "a"]] ++
          [("t", (["deps", "t"] : DirPath))].map fun kv => .removeDir kv.2)
        false := by
  refine ⟨rfl, ?_⟩
  exact (wd_c8_cache_recovery_amended ⟨"https", "h/x"⟩ (some 6) none "wit" none
    ["deps", "a"]
    ⟨fun _ => .err .notFound, true,
      some (.hit ⟨5, 9⟩ (.ok ⟨[("t", ["deps", "t"])], fun _ => .err .notFound⟩)),
      .err, .err .other⟩).2.2.2.2.2.1
    ⟨5, 9⟩ ⟨[("t", ["deps", "t"])], fun _ => .err .notFound⟩ rfl (by decide)

theorem tarEntAction_direct_iff (skip : List Identifier) (p : List (Option String)) (n : String) :
    tarEntAction skip p = .direct n ↔ DirectShape p n := by
  constructor
  · intro h
    unfold tarEntAction at h
    split at h
    · split_ifs at h with hc
      · cases h
        obtain ⟨ha, hw⟩ := hc
        subst ha
        exact ⟨Or.inl rfl, hw⟩
    · split_ifs at h with hc
      · cases h
        obtain ⟨ha, hw⟩ := hc
        subst ha
        exact ⟨Or.inr ⟨_, rfl⟩, hw⟩
    · split_ifs at h with hc <;> simp_all
    · split_ifs at h with hc <;> simp_all
    · simp at h
  · rintro ⟨hsh, hw⟩
    rcases hsh with h2 | ⟨c0, h3⟩
    · subst h2
      simp [tarEntAction, hw]
    · subst h3
      simp [tarEntAction, hw]

theorem tarEntAction_trans_iff (skip : List Identifier) (p : List (Option String))
    (i : Identifier) (n : String) :
    tarEntAction skip p = .trans i n ↔
      TransShape p i n ∧ skip.contains i = false := by
  constructor
  · intro h
    unfold tarEntAction at h
    split at h
    · split_ifs at h with hc <;> simp_all
    · split_ifs at h with hc <;> simp_all
    · split_ifs at h with hc
      · cases h
        obtain ⟨ha, hb, hsk, hw⟩ := hc
        subst ha
        subst hb
        exact ⟨⟨Or.inl rfl, hw⟩, hsk⟩
    · split_ifs at h with hc
      · cases h
        obtain ⟨hb, hcc, hsk, hw⟩ := hc
        subst hb
        subst hcc
        exact ⟨⟨Or.inr ⟨_, _, rfl⟩, hw⟩, hsk⟩
    · simp at h
  · rintro ⟨⟨hsh, hw⟩, hsk⟩
    have hsk2 : i ∉ skip := by simpa using hsk
    rcases hsh with h4 | ⟨c0, rest, h5⟩
    · subst h4
      simp [tarEntAction, hw, hsk, hsk2]
    · subst h5
      cases hr : rest with
      | nil => simp [tarEntAction, hw, hsk, hsk2]
      | cons r rs => simp [tarEntAction, hw, hsk, hsk2]

theorem untarGo_writes_map (dst : DirPath) (skip : List Identifier) (hd : dst ≠ []) :
    ∀ (ents : List TarEnt) (st : UntarState),
      (untarGo dst skip ents st).writes = st.writes ++ ents.filterMap (codeWrite dst skip) ∧
      (untarGo dst skip ents st).map = st.map ++ ents.filterMap (codeTrans dst skip) := by
  intro ents
  induction ents with
  | nil =>
    intro st
    simp [untarGo]
  | cons e rest ih =>
    intro st
    simp only [untarGo, List.filterMap_cons]
    cases ha : tarEntAction skip e.path with
    | direct name =>
      have hcw : codeWrite dst skip e = some (dst ++ [name], e.content) := by
        simp [codeWrite, ha]
      have hct : codeTrans dst skip e = none := by
        simp [codeTrans, ha]
      rw [hcw, hct]
      refine ⟨?_, ?_⟩
      · rw [(ih _).1]
        try simp
      · rw [(ih _).2]
        try simp
    | trans i name =>
      have hcw : codeWrite dst skip e = some (dst.dropLast ++ [i, name], e.content) := by
        simp [codeWrite, ha]
      have hct : codeTrans dst skip e = some (i, dst.dropLast ++ [i]) := by
        simp [codeTrans, ha]
      rw [hcw, hct]
      cases dst with
      | nil => exact absurd rfl hd
      | cons d0 ds0 =>
        refine ⟨?_, ?_⟩
        · rw [(ih _).1]
          try simp
        · rw [(ih _).2]
          try simp
    | skipEnt =>
      have hcw : codeWrite dst skip e = none := by
        simp [codeWrite, ha]
      have hct : codeTrans dst skip e = none := by
        simp [codeTrans, ha]
      rw [hcw, hct]
      exact ih st

/-- Counterexample to C4: the `untar` match examines only the first five
path components, so the six-component path `x/wit/deps/a/b.wit/c` is
unpacked as a transitive entry for `a` (writing `deps/a/b.wit`), although
the claimed shapes — which this entry does not match — say it must be
ignored. -/
theorem wd_c4_untar_shapes_cex :
    (untarModel [⟨[some "x", some "wit", some "deps", some "a", some "b.wit", some "c"], 7⟩]
      ["deps", "y"] [] []).writes = [(["deps", "a", "b.wit"], 7)] ∧
    (untarModel [⟨[some "x", some "wit", some "deps", some "a", some "b.wit", some "c"], 7⟩]
      ["deps", "y"] [] []).map = [("a", ["deps", "a"])] ∧
    specWrite ["deps", "y"] []
      ⟨[some "x", some "wit", some "deps", some "a", some "b.wit", some "c"], 7⟩ = none := by
  exact ⟨by decide, by decide, by decide⟩

/-- C4 as amended: for a destination with a parent, `untar` writes exactly
the entries its match selects and returns the `(id, sibling)` pairs of the
transitive entries; the direct arms match exactly `[<any>/]wit/<name>.wit`,
and the transitive arms match exactly `wit/deps/<id>/<name>.wit` or any path
of five or more components whose second and third components are `wit` and
`deps` (components beyond the fifth are ignored), with `<id>` not in the
skip set and a case-insensitive `.wit` name. -/
theorem wd_c4_untar_shapes_amended (ents : List TarEnt) (dst : DirPath)
    (skip : List Identifier) (fs0 : FS) (hd : dst ≠ []) :
    ((untarModel ents dst skip fs0).writes = ents.filterMap (codeWrite dst skip) ∧
     (untarModel ents dst skip fs0).map = ents.filterMap (codeTrans dst skip)) ∧
    (∀ p n, tarEntAction skip p = .direct n ↔ DirectShape p n) ∧
    (∀ p i n, tarEntAction skip p = .trans i n ↔
      TransShape p i n ∧ skip.contains i = false) := by
  refine ⟨?_, fun p n => tarEntAction_direct_iff skip p n,
    fun p i n => tarEntAction_trans_iff skip p i n⟩
  have h := untarGo_writes_map dst skip hd ents ⟨fsRemoveUnder fs0 dst, [], []⟩
  simpa [untarModel] using h

/-- Witness for the amended C4 on a concrete archive: a flat wit file, a
prefixed deep transitive entry (uppercase extension, trailing component), a
skipped transitive identifier, and a non-matching path. -/
theorem wd_c4_untar_shapes_amended_witness :
    (["deps", "y"] : DirPath) ≠ [] ∧
    (untarModel
      [⟨[some "wit", some "a.wit"], 1⟩,
       ⟨[some "pfx", some "wit", some "deps", some "t", some "b.WIT", some "extra"], 2⟩,
       ⟨[some "wit", some "deps", some "skipme", some "c.wit"], 3⟩,
       ⟨[some "other", some "d.wit"], 4⟩]
      ["deps", "y"] ["skipme"] []).writes =
      [(["deps", "y", "a.wit"], 1), (["deps", "t", "b.WIT"], 2)] := by
  refine ⟨by decide, ?_⟩
  have h := (wd_c4_untar_shapes_amended
    [⟨[some "wit", some "a.wit"], 1⟩,
     ⟨[some "pfx", some "wit", some "deps", some "t", some "b.WIT", some "extra"], 2⟩,
     ⟨[some "wit", some "deps", some "skipme", some "c.wit"], 3⟩,
     ⟨[some "other", some "d.wit"], 4⟩]
    ["deps", "y"] ["skipme"] [] (by decide)).1.1
  rw [h]
  decide

/-- C5 is right about the intent and the code is wrong: `untar` calls
`recreate_dir` on the sibling directory before every transitive entry, not
only the first, so when the archive carries `wit/deps/foo/a.wit` followed by
`wit/deps/foo/b.wit`, writing `b.wit` wipes the sibling directory and only
`b.wit` survives.  The first half of the claim holds: the destination is
recreated once up front, removing the stale `old.wit`. -/
theorem wd_c5_sibling_recreated_eval :
    (untarModel
      [⟨[some "wit", some "deps", some "foo", some "a.wit"], 1⟩,
       ⟨[some "wit", some "deps", some "foo", some "b.wit"], 2⟩]
      ["deps", "x"] [] [(["deps", "x", "old.wit"], 9)]) =
      ⟨[(["deps", "foo", "b.wit"], 2)],
       [("foo", ["deps", "foo"]), ("foo", ["deps", "foo"])],
       [(["deps", "foo", "a.wit"], 1), (["deps", "foo", "b.wit"], 2)]⟩ ∧
    (["deps", "foo", "a.wit"], 1) ∉
      (untarModel
        [⟨[some "wit", some "deps", some "foo", some "a.wit"], 1⟩,
         ⟨[some "wit", some "deps", some "foo", some "b.wit"], 2⟩]
        ["deps", "x"] [] [(["deps", "x", "old.wit"], 9)]).fs := by
  exact ⟨by decide, by decide⟩

theorem strLtAux_total : ∀ as bs : List Char,
    strLtAux as bs = true ∨ as = bs ∨ strLtAux bs as = true := by
  intro as
  induction as with
  | nil =>
    intro bs
    cases bs with
    | nil => exact Or.inr (Or.inl rfl)
    | cons b bs => exact Or.inl rfl
  | cons a as ih =>
    intro bs
    cases bs with
    | nil => exact Or.inr (Or.inr rfl)
    | cons b bs =>
      rcases lt_trichotomy a b with hab | hab | hab
      · left
        simp [strLtAux, hab]
      · subst hab
        rcases ih bs with h | h | h
        · left
          simp [strLtAux, h]
        · subst h
          exact Or.inr (Or.inl rfl)
        · right
          right
          simp [strLtAux, h]
      · right
        right
        simp [strLtAux, hab]

theorem strLt_total (a b : String) :
    strLt a b = true ∨ a = b ∨ strLt b a = true := by
  rcases strLtAux_total a.data b.data with h | h | h
  · exact Or.inl h
  · refine Or.inr (Or.inl ?_)
    cases a
    cases b
    exact congrArg String.mk (by simpa using h)
  · exact Or.inr (Or.inr h)

theorem mem_insortDedup (x : Identifier) : ∀ (l : List Identifier) (y : Identifier),
    y ∈ insortDedup x l ↔ y = x ∨ y ∈ l := by
  intro l
  induction l with
  | nil => intro y; simp [insortDedup]
  | cons h t ih =>
    intro y
    simp only [insortDedup]
    by_cases hlt : strLt x h
    · simp [hlt]
      try tauto
    · rw [if_neg (by simp [hlt])]
      by_cases he : x = h
      · subst he
        simp
        try tauto
      · rw [if_neg he]
        simp [ih]
        try tauto

theorem mem_sortDedup (l : List Identifier) (y : Identifier) :
    y ∈ sortDedup l ↔ y ∈ l := by
  induction l with
  | nil => simp [sortDedup]
  | cons h t ih =>
    simp only [sortDedup, List.foldr_cons] at ih ⊢
    rw [mem_insortDedup]
    simp [ih]

theorem strSorted_cons_of (y : Identifier) (l : List Identifier)
    (hl : strSorted l = true) (hhead : ∀ h t, l = h :: t → strLt y h = true) :
    strSorted (y :: l) = true := by
  cases l with
  | nil => rfl
  | cons h t =>
    simp only [strSorted, Bool.and_eq_true]
    exact ⟨hhead h t rfl, hl⟩

theorem strSorted_tail (y : Identifier) (l : List Identifier)
    (h : strSorted (y :: l) = true) : strSorted l = true := by
  cases l with
  | nil => rfl
  | cons h2 t =>
    simp only [strSorted, Bool.and_eq_true] at h
    exact h.2

theorem strSorted_head (y h2 : Identifier) (t : List Identifier)
    (h : strSorted (y :: h2 :: t) = true) : strLt y h2 = true := by
  simp only [strSorted, Bool.and_eq_true] at h
  exact h.1

theorem insortDedup_head (x : Identifier) : ∀ (l : List Identifier) (h : Identifier)
    (t : List Identifier), insortDedup x l = h :: t → h = x ∨ ∃ t0, l = h :: t0 := by
  intro l
  induction l with
  | nil =>
    intro h t he
    simp only [insortDedup] at he
    cases he
    exact Or.inl rfl
  | cons h0 t0 ih =>
    intro h t he
    simp only [insortDedup] at he
    by_cases hlt : strLt x h0
    · rw [if_pos (by simp [hlt])] at he
      cases he
      exact Or.inl rfl
    · rw [if_neg (by simp [hlt])] at he
      by_cases heq : x = h0
      · rw [if_pos heq] at he
        cases he
        exact Or.inr ⟨t0, rfl⟩
      · rw [if_neg heq] at he
        cases he
        exact Or.inr ⟨t0, rfl⟩

theorem strSorted_insortDedup (x : Identifier) : ∀ (l : List Identifier),
    strSorted l = true → strSorted (insortDedup x l) = true := by
  intro l
  induction l with
  | nil => intro _; rfl
  | cons y ys ih =>
    intro hs
    simp only [insortDedup]
    by_cases hlt : strLt x y
    · rw [if_pos (by simp [hlt])]
      simp only [strSorted, Bool.and_eq_true]
      exact ⟨hlt, hs⟩
    · rw [if_neg (by simp [hlt])]
      by_cases heq : x = y
      · rw [if_pos heq]
        exact hs
      · rw [if_neg heq]
        have hys : strSorted ys = true := strSorted_tail y ys hs
        have hyx : strLt y x = true := by
          rcases strLt_total x y with h | h | h
          · exact absurd h hlt
          · exact absurd h heq
          · exact h
        refine strSorted_cons_of y (insortDedup x ys) (ih hys) ?_
        intro h2 t2 he2
        rcases insortDedup_head x ys h2 t2 he2 with he | ⟨t3, he3⟩
        · subst he
          exact hyx
        · subst he3
          exact strSorted_head y h2 t3 hs

theorem strSorted_sortDedup (l : List Identifier) : strSorted (sortDedup l) = true := by
  induction l with
  | nil => rfl
  | cons h t ih =>
    simp only [sortDedup, List.foldr_cons] at ih ⊢
    exact strSorted_insortDedup h _ ih

theorem mem_readWits (l : List DirEnt) (n : String) :
    n ∈ readWits l ↔ ∃ ent ∈ l, ent.name = n ∧ ent.ftype ≠ .dir ∧ isWit n = true := by
  simp only [readWits, List.mem_filterMap]
  constructor
  · rintro ⟨ent, hent, hf⟩
    by_cases hw : isWit ent.name = false
    · rw [if_pos hw] at hf
      cases hf
    · rw [if_neg hw] at hf
      by_cases hd : ent.ftype = .dir
      · rw [if_pos hd] at hf
        cases hf
      · rw [if_neg hd] at hf
        cases hf
        exact ⟨ent, hent, rfl, hd, by simpa using hw⟩
  · rintro ⟨ent, hent, hn, hd, hw⟩
    refine ⟨ent, hent, ?_⟩
    rw [if_neg (by simp [hn, hw]), if_neg hd, hn]

/-- Counterexample to C9: a symlink named `a.wit` — here pointing at a
directory — passes the `read_wits` filter, which skips an entry only when
its unfollowed file type is a directory, so the packer appends an entry for
it although the claim says symlinks to directories are ignored. -/
theorem wd_c9_tar_symlink_cex :
    tarModel [⟨"a.wit", .symlink, true⟩] = ⟨true, [["wit", "a.wit"]]⟩ ∧
    (tarModel [⟨"a.wit", .symlink, true⟩]).entries ≠ [] := by
  exact ⟨by decide, by decide⟩

/-- C9 as amended: `tar(path)` emits, in deterministic header mode, exactly
one `wit/<name>` entry (flat, no `deps/` layer) for each directory entry
whose name has a case-insensitive `.wit` extension and whose unfollowed file
type is not a directory — symlinks, including symlinks to directories, are
not filtered — and the names are sorted and deduplicated. -/
theorem wd_c9_tar_deterministic_amended (l : List DirEnt) :
    (tarModel l).deterministic = true ∧
    (tarModel l).entries = (sortDedup (readWits l)).map (fun n => ["wit", n]) ∧
    strSorted (sortDedup (readWits l)) = true ∧
    (∀ n, n ∈ sortDedup (readWits l) ↔
      ∃ ent ∈ l, ent.name = n ∧ ent.ftype ≠ .dir ∧ isWit n = true) ∧
    (∀ p ∈ (tarModel l).entries, ∃ n, p = ["wit", n] ∧ isWit n = true) := by
  refine ⟨rfl, rfl, strSorted_sortDedup _, ?_, ?_⟩
  · intro n
    rw [mem_sortDedup]
    exact mem_readWits l n
  · intro p hp
    simp only [tarModel, List.mem_map] at hp
    obtain ⟨n, hn, hpe⟩ := hp
    rw [mem_sortDedup, mem_readWits] at hn
    obtain ⟨ent, -, -, -, hw⟩ := hn
    exact ⟨n, hpe.symm, hw⟩
